import Mathlib

/-!
# Verification of the tool6-client-intake chat widget

A shallow embedding of the client-side chat widget
(`src/unnamed/part_000`, which subsumes `src/frontend/chat-widget.js`):
session identity (`getSessionId`), the Markdown renderer
(`parseMarkdown`), the upstream context resolver (`loadAuditContext`),
the greeting synthesizer (`generateGreeting`), and the chat transport
(`sendNuruMessage`).

Modelling conventions:
* JavaScript strings are Lean `String`s; character-level transformation
  passes operate on `List Char` (`String.data`).
* `undefined`/missing JSON object fields are `Option.none`; template
  literal interpolation of `undefined` produces the text "undefined",
  as in JavaScript.
* Network effects are parameters: each probe / chat request outcome is
  an explicit input, and the model returns the observable effects
  (resolved value, list of endpoints actually contacted, DOM message
  log, diagnostic console lines).
* `Math.random()` draws are explicit `Nat` parameters
  (`Math.floor(Math.random() * 50)` is modelled as a parameter `rand`).
* A thrown TypeError (method call on `undefined`) is modelled by an
  `Option.none` result.
-/

/-! ## Session Identity Manager (part_000 lines 11-20)

Module state: the `sessionId` variable (`mem`) and the
`localStorage` entry `nuru_session_id` (`store`).  `Date.now()` and
`Math.random().toString(36).substr(2, 9)` are the parameters `now` and
`rnd`.  The third component of the result counts `localStorage.getItem`
calls performed (0 or 1). -/

structure SessionStore where
  mem : Option String
  store : Option String
deriving DecidableEq, Repr

/-- `'session_' + Date.now() + '_' + Math.random().toString(36).substr(2, 9)` -/
def freshSessionId (now : Nat) (rnd : String) : String :=
  "session_" ++ toString now ++ "_" ++ rnd

/-- Embedding of `getSessionId` (part_000 lines 11-20).  JavaScript
truthiness: a stored empty string is falsy, so `if (!sessionId)` would
regenerate in that case. -/
def getSessionId (now : Nat) (rnd : String) (st : SessionStore) :
    String × SessionStore × Nat :=
  match st.mem with
  | some s => (s, st, 0)
  | none =>
    match st.store with
    | some s =>
      if s = "" then
        let fresh := freshSessionId now rnd
        (fresh, ⟨some fresh, some fresh⟩, 1)
      else (s, ⟨some s, st.store⟩, 1)
    | none =>
      let fresh := freshSessionId now rnd
      (fresh, ⟨some fresh, some fresh⟩, 1)

/-! ## Hand-off context data model (duck-typed JSON objects) -/

/-- An element of the `top_waste_zones` array.  `nullish` stands for a
falsy element (`null`, `0`, `""`, `false`); `obj name` is a truthy
object whose `name` field may be missing. -/
inductive JsZone where
  | nullish
  | obj (name : Option String)
deriving DecidableEq, Repr

/-- A hand-off context object: the union of the fields the widget ever
reads, each possibly absent.  Shape is recognised by field presence
(ROI: `annual_savings`; Readiness: `overall_score`; Audit:
`waste_score`). -/
structure HandoffContext where
  process_name : Option String := none
  annual_savings : Option Int := none
  roi_percentage : Option Int := none
  breakeven_months : Option Int := none
  risk_level : Option String := none
  overall_score : Option Int := none
  readiness_level : Option String := none
  company_name : Option String := none
  waste_score : Option Int := none
  total_hours_wasted : Option Int := none
  top_waste_zones : Option (List JsZone) := none
deriving DecidableEq, Repr

/-- Interpolation of a possibly-undefined string (`${x}` renders
`undefined` as "undefined"). -/
def jsStr (o : Option String) : String := o.getD "undefined"

/-- Interpolation of a possibly-undefined number. -/
def jsNumStr : Option Int → String
  | some n => toString n
  | none => "undefined"

/-! ## Context Resolver (part_000 lines 69-113) -/

inductive Tool where
  | tool5
  | tool4
  | tool3
deriving DecidableEq, Repr

/-- Outcome of one `fetch({tool}/api/session/{id})` probe.  `failure`
covers a network error, a non-2xx status, and (per the documented
interface contract "ok implies parseable JSON body") nothing else;
`success body` is a 2xx response with JSON body `body`. -/
inductive ProbeOutcome where
  | success (body : HandoffContext)
  | failure
deriving DecidableEq, Repr

/-- Split a character list on a separator character (every occurrence;
result has one more element than the number of separators). -/
def splitOnCharL (sep : Char) : List Char → List (List Char)
  | [] => [[]]
  | c :: r =>
    if c = sep then [] :: splitOnCharL sep r
    else
      match splitOnCharL sep r with
      | l :: ls => (c :: l) :: ls
      | [] => [[c]]

/-- `new URLSearchParams(query).get(key)`: split on `&`, drop empty
pairs, split each pair at the first `=`, return the first value whose
key matches (percent-decoding is not modelled; the widget's session
ids are plain alphanumerics). -/
def urlParamsGet (query : List Char) (key : List Char) : Option (List Char) :=
  let pairs := (splitOnCharL '&' query).filter (fun p => p ≠ [])
  let kvs := pairs.map fun p =>
    (p.takeWhile (fun c => c ≠ '='), (p.dropWhile (fun c => c ≠ '=')).drop 1)
  (kvs.find? (fun kv => kv.1 == key)).map (fun kv => kv.2)

/-- `window.location.hash.split('?')[1]`, with `hashParams || ''`:
the part of the fragment after the first `?` (up to a second `?`), or
the empty string when there is none. -/
def hashQueryOf (hash : String) : List Char :=
  ((splitOnCharL '?' hash.data).get? 1).getD []

/-- `new URLSearchParams(hashParams || '').get('session')`. -/
def getSessionParam (hash : String) : Option String :=
  (urlParamsGet (hashQueryOf hash) "session".data).map (fun cs => ⟨cs⟩)

/-- Embedding of `loadAuditContext` (part_000 lines 69-113).  `probe`
is the network environment: the outcome of a GET to each tool's
`/api/session/{sid}`.  Returns the resolved context and the list of
endpoints actually probed, in order. -/
def loadAuditContext (hash : String) (probe : Tool → String → ProbeOutcome) :
    Option HandoffContext × List Tool :=
  match getSessionParam hash with
  | none => (none, [])
  | some sid =>
    if sid = "" then (none, [])
    else
      match probe .tool5 sid with
      | .success c => (some c, [.tool5])
      | .failure =>
        match probe .tool4 sid with
        | .success c => (some c, [.tool5, .tool4])
        | .failure =>
          match probe .tool3 sid with
          | .success c => (some c, [.tool5, .tool4, .tool3])
          | .failure => (none, [.tool5, .tool4, .tool3])

/-! ## Greeting Synthesizer (part_000 lines 177-236) -/

/-- `(n).toLocaleString('en-US', currency USD, minimumFractionDigits 0)`
for whole-number amounts: digits grouped in threes with commas,
prefixed by `$` (after the sign).  Conversion is performed on the
reversed digit list. -/
def commaGroupRev : List Char → List Char
  | a :: b :: c :: d :: rest => a :: b :: c :: ',' :: commaGroupRev (d :: rest)
  | l => l

def toLocaleStringUSD (n : Int) : String :=
  let digits := (toString n.natAbs).data
  let grouped : List Char := (commaGroupRev digits.reverse).reverse
  (if n < 0 then "-$" else "$") ++ (⟨grouped⟩ : String)

/-- `(n).toFixed(1)` for a whole-number value. -/
def toFixed1 (n : Int) : String := toString n ++ ".0"

/-- `top_waste_zones && top_waste_zones[0] ? top_waste_zones[0].name
: 'operations'` -- including the interpolation of a missing `name`
field as "undefined". -/
def topZoneOf : Option (List JsZone) → String
  | none => "operations"
  | some zs =>
    match zs.head? with
    | none => "operations"
    | some .nullish => "operations"
    | some (.obj name) => jsStr name

def nuruFallbackGreeting : String := "Hi! I'm Nuru. What brings you here today?"

/-- The three ROI closing sentences, keyed on `context.risk_level`. -/
def riskClose (risk : Option String) : String :=
  if risk = some "Low" then
    "This looks like a strong automation candidate. Want to explore implementation options?"
  else if risk = some "Medium" then
    "There are some considerations to address. Let's discuss how to de-risk this project."
  else
    "I notice some challenges with this automation. Let's find a better starting point for your AI journey."

/-- The three readiness closing sentences, keyed on `overall_score`. -/
def scoreClose (score : Int) : String :=
  if score ≥ 75 then
    "You're in great shape! Let's talk about which automation to build first."
  else if score ≥ 60 then
    "You have solid foundations. Want to address the gaps before we start building?"
  else
    "Let's work on strengthening your foundations. I can show you the fastest path forward."

/-- Embedding of `generateGreeting` (part_000 lines 177-236).  `rand`
models `Math.floor(Math.random() * 50)` (a draw in `[0, 50)`).  The
result is `none` exactly when the original throws a TypeError
(`roi_percentage.toFixed` on an ROI-shaped context whose
`roi_percentage` is missing); otherwise `some` of the greeting. -/
def generateGreeting (context : Option HandoffContext) (rand : Nat) : Option String :=
  match context with
  | none => some nuruFallbackGreeting
  | some c =>
    match c.annual_savings with
    | some sav =>
      match c.roi_percentage with
      | none => none
      | some roiP =>
        some ("I see you just calculated ROI for " ++ jsStr c.process_name ++ ".\n\n"
          ++ "Your projection shows " ++ toLocaleStringUSD sav
          ++ " annual savings with " ++ toFixed1 roiP
          ++ "% ROI, breaking even in " ++ jsNumStr c.breakeven_months ++ " months.\n\n"
          ++ riskClose c.risk_level)
    | none =>
      match c.overall_score with
      | some score =>
        some ("I see you scored " ++ toString score ++ "/100 on AI readiness ("
          ++ jsStr c.readiness_level ++ ").\n\n" ++ scoreClose score)
      | none =>
        match c.waste_score with
        | some ws =>
          some ("I see you just completed an intelligence audit for "
            ++ jsStr c.company_name ++ ".\n\n"
            ++ "Your waste score is " ++ toString ws ++ "/100, with "
            ++ jsNumStr c.total_hours_wasted ++ " hours lost monthly.\n\n"
            ++ "Top waste zone: " ++ topZoneOf c.top_waste_zones ++ "\n\n"
            ++ "I've analyzed " ++ toString (rand + 50)
            ++ " similar businesses. Want to see what worked for them?")
        | none => some nuruFallbackGreeting

/-- `true` iff `generateGreeting` reaches the Audit branch (the only
branch that reads the random draw). -/
def takesAuditBranch : Option HandoffContext → Bool
  | none => false
  | some c => c.annual_savings.isNone && c.overall_score.isNone && c.waste_score.isSome

/-! ## Chat Transport (part_000 lines 239-289) -/

structure ChatMessage where
  content : String
  isUser : Bool
deriving DecidableEq, Repr

/-- The JSON body of a `POST /api/chat` request. -/
structure ChatRequest where
  message : String
  session_id : String
  audit_context : Option HandoffContext
deriving DecidableEq, Repr

/-- Outcome of the awaited `fetch` + `response.json()`: either a parsed
body (with possibly-absent `response` and `error` fields) or a thrown
transport/parse error. -/
inductive NetOutcome where
  | response (resp : Option String) (err : Option String)
  | failure
deriving DecidableEq, Repr

/-- Observable widget state: the pending-request flag
(`isWaitingForResponse`), the input field value, the message log, the
typing-indicator presence, the chat requests issued so far, and the
operator-facing console log. -/
structure WidgetState where
  pending : Bool
  input : String
  messages : List ChatMessage
  typing : Bool
  calls : List ChatRequest
  console : List String
deriving DecidableEq, Repr

/-- JavaScript truthiness of a possibly-absent string field. -/
def jsTruthyStr : Option String → Bool
  | some s => s ≠ ""
  | none => false

/-- JavaScript `String.prototype.trim`: strip whitespace from both
ends. -/
def jsTrim (s : String) : String :=
  ⟨((s.data.dropWhile Char.isWhitespace).reverse.dropWhile Char.isWhitespace).reverse⟩

def apologyBackendError : String := "Sorry, I encountered an error. Please try again."

def apologyConnection : String := "Sorry, I'm having trouble connecting. Please try again."

/-- Embedding of `sendNuruMessage` (part_000 lines 239-289) as one
request/response cycle: `sid` is `getSessionId()`, `auditContext` the
module-level resolved context, `net` the outcome of the awaited
network exchange. -/
def sendNuruMessage (sid : String) (auditContext : Option HandoffContext)
    (net : NetOutcome) (st : WidgetState) : WidgetState :=
  if st.pending then st
  else
    let message := jsTrim st.input
    if message = "" then st
    else
      let st1 : WidgetState :=
        { st with
          messages := st.messages ++ [⟨message, true⟩]
          input := ""
          pending := true
          typing := true }
      let st2 : WidgetState :=
        { st1 with calls := st1.calls ++ [⟨message, sid, auditContext⟩] }
      match net with
      | .response r e =>
        let st3 : WidgetState := { st2 with typing := false }
        let st4 : WidgetState :=
          if jsTruthyStr r then
            { st3 with messages := st3.messages ++ [⟨r.getD "", false⟩] }
          else if jsTruthyStr e then
            { st3 with
              messages := st3.messages ++ [⟨apologyBackendError, false⟩]
              console := st3.console ++ ["Backend error: " ++ e.getD ""] }
          else st3
        { st4 with pending := false }
      | .failure =>
        { st2 with
          typing := false
          messages := st2.messages ++ [⟨apologyConnection, false⟩]
          console := st2.console ++ ["Connection error"]
          pending := false }

/-! ## Markdown Renderer (part_000 lines 25-66)

Each `html.replace(...)` call is embedded as a `List Char`
transformation.  Regexes anchored with `^...$` under the `m` flag are
per-line transforms: the string is split on `'\n'`, each line mapped,
and the lines rejoined (no pass inserts a `'\n'`).  The two global
inline regexes (bold, italic) are left-to-right scans with non-greedy
search for the closing delimiter, exactly as the backtracking regex
engine behaves on these patterns; they carry a fuel argument equal to
the input length so that the recursion is structural. -/

/-- `.replace(/&/g, '&amp;')` -/
def escAmp : List Char → List Char
  | [] => []
  | c :: r => if c = '&' then '&' :: 'a' :: 'm' :: 'p' :: ';' :: escAmp r else c :: escAmp r

/-- `.replace(/</g, '&lt;')` -/
def escLt : List Char → List Char
  | [] => []
  | c :: r => if c = '<' then '&' :: 'l' :: 't' :: ';' :: escLt r else c :: escLt r

/-- `.replace(/>/g, '&gt;')` -/
def escGt : List Char → List Char
  | [] => []
  | c :: r => if c = '>' then '&' :: 'g' :: 't' :: ';' :: escGt r else c :: escGt r

/-- Line 31: the three sequential entity-escaping replaces. -/
def escapeHtml (cs : List Char) : List Char := escGt (escLt (escAmp cs))

/-- Split on `'\n'` (the line structure seen by the `m`-flag anchors). -/
def splitNl : List Char → List (List Char)
  | [] => [[]]
  | c :: r =>
    if c = '\n' then [] :: splitNl r
    else
      match splitNl r with
      | l :: ls => (c :: l) :: ls
      | [] => [[c]]

/-- Rejoin lines with `'\n'`. -/
def joinNl : List (List Char) → List Char
  | [] => []
  | [l] => l
  | l :: ls => l ++ '\n' :: joinNl ls

/-- Apply a per-line transform (an `m`-anchored replace). -/
def mapLines (f : List Char → List Char) (cs : List Char) : List Char :=
  joinNl ((splitNl cs).map f)

def h4Open : List Char := "<h4 class=\"nuru-h4\">".data
def h4Close : List Char := "</h4>".data
def h3Open : List Char := "<h3 class=\"nuru-h3\">".data
def h3Close : List Char := "</h3>".data
def strongOpen : List Char := "<strong>".data
def strongClose : List Char := "</strong>".data
def emOpen : List Char := "<em>".data
def emClose : List Char := "</em>".data
def liOpen : List Char := "<li>".data
def liClose : List Char := "</li>".data
def ulOpen : List Char := "<ul class=\"nuru-list\">".data
def ulClose : List Char := "</ul>".data
def hrTag : List Char := "<hr class=\"nuru-divider\">".data
def pBreak : List Char := "</p><p class=\"nuru-p\">".data
def brTag : List Char := "<br>".data
def pOpen : List Char := "<p class=\"nuru-p\">".data
def pClose : List Char := "</p>".data

/-- Line 34: `^### (.+)$` → `<h4 class="nuru-h4">$1</h4>` per line
(`.+` needs at least one character; a line never contains `'\n'`). -/
def h4Line (l : List Char) : List Char :=
  if "### ".data.isPrefixOf l ∧ l.drop 4 ≠ [] then h4Open ++ l.drop 4 ++ h4Close
  else l

/-- Line 35: `^## (.+)$` → `<h3 class="nuru-h3">$1</h3>` per line. -/
def h3Line (l : List Char) : List Char :=
  if "## ".data.isPrefixOf l ∧ l.drop 3 ≠ [] then h3Open ++ l.drop 3 ++ h3Close
  else l

/-- Non-greedy search for the closing `**` of `/\*\*(.+?)\*\*/`: the
shortest non-empty newline-free content followed by `**`.  Returns
the content and the remainder after the closing `**`. -/
def boldFind : List Char → Option (List Char × List Char)
  | [] => none
  | c :: rest =>
    if c = '\n' then none
    else if rest.head? = some '*' ∧ rest.tail.head? = some '*' then
      some ([c], rest.tail.tail)
    else (boldFind rest).map (fun p => (c :: p.1, p.2))

/-- Line 38: the global replace `/\*\*(.+?)\*\*/g` →
`<strong>$1</strong>`, as a left-to-right scan.  `fuel` bounds the
number of scan steps; `boldPass` supplies `cs.length`, which
suffices because every step consumes at least one character. -/
def boldScanF : Nat → List Char → List Char
  | _, [] => []
  | 0, cs => cs
  | fuel + 1, c :: rest =>
    if c = '*' ∧ rest.head? = some '*' then
      match boldFind rest.tail with
      | some (content, r2) => strongOpen ++ content ++ strongClose ++ boldScanF fuel r2
      | none => '*' :: boldScanF fuel rest
    else c :: boldScanF fuel rest

def boldPass (cs : List Char) : List Char := boldScanF cs.length cs

/-- Non-greedy search for the closing `*` of
`/(?<!\*)\*(?!\*)(.+?)(?<!\*)\*(?!\*)/`: the shortest non-empty
newline-free content whose last character is not `*`, followed by a
`*` that is not followed by another `*`. -/
def italFind : List Char → Option (List Char × List Char)
  | [] => none
  | c :: rest =>
    if c = '\n' then none
    else if rest.head? = some '*' ∧ c ≠ '*' ∧ rest.tail.head? ≠ some '*' then
      some ([c], rest.tail)
    else (italFind rest).map (fun p => (c :: p.1, p.2))

/-- Line 41: the global replace
`/(?<!\*)\*(?!\*)(.+?)(?<!\*)\*(?!\*)/g` → `<em>$1</em>`.  `prev` is
the character just before the scan position in the original string
(for the opening lookbehind); matching resumes after a match with
`prev` the closing `*`. -/
def italScanF : Nat → Option Char → List Char → List Char
  | _, _, [] => []
  | 0, _, cs => cs
  | fuel + 1, prev, c :: rest =>
    if c = '*' then
      if prev ≠ some '*' ∧ rest.head? ≠ some '*' then
        match italFind rest with
        | some (content, r2) => emOpen ++ content ++ emClose ++ italScanF fuel (some '*') r2
        | none => '*' :: italScanF fuel (some '*') rest
      else '*' :: italScanF fuel (some '*') rest
    else c :: italScanF fuel (some c) rest

def italPass (cs : List Char) : List Char := italScanF cs.length none cs

/-- Line 44: `^[-•] (.+)$` → `<li>$1</li>` per line. -/
def bulletLine (l : List Char) : List Char :=
  if ("- ".data.isPrefixOf l ∨ "• ".data.isPrefixOf l) ∧ l.drop 2 ≠ [] then
    liOpen ++ l.drop 2 ++ liClose
  else l

/-- A line wholly matched by `<li>.*<\/li>` (with `.*` greedy the
regex consumes to the line's last `</li>`; at this stage of the
pipeline every `<li>` occurrence opens a bullet-converted line that
ends with `</li>`, because the input's own `<` were escaped first and
numbered-list conversion has not run yet). -/
def isLiLine (l : List Char) : Bool :=
  liOpen.isPrefixOf l && liClose.isSuffixOf l

/-- Lines 46-48: the run-grouping replace
`/(<li>.*<\/li>\n?)+/g` → `'<ul class="nuru-list">' + match + '</ul>'`
expressed on the line list.  The first argument is `some cur` while
inside a run, holding the previous (already `<ul>`-prefixed) run line:
each matched run consumes the newline after its last line when one
exists, so the closing `</ul>` lands at the start of the following
line, and at the end of the last run line otherwise. -/
def ulWrapGo : Option (List Char) → List (List Char) → List (List Char)
  | none, [] => []
  | none, l :: ls =>
    if isLiLine l then ulWrapGo (some (ulOpen ++ l)) ls
    else l :: ulWrapGo none ls
  | some cur, [] => [cur ++ ulClose]
  | some cur, l :: ls =>
    if isLiLine l then cur :: ulWrapGo (some l) ls
    else cur :: (ulClose ++ l) :: ulWrapGo none ls

def ulWrapLines (ls : List (List Char)) : List (List Char) := ulWrapGo none ls

def ulWrapPass (cs : List Char) : List Char := joinNl (ulWrapLines (splitNl cs))

/-- Line 51: `^\d+\. (.+)$` → `<li>$1</li>` per line (`\d+` greedy
takes the maximal digit run; the next two characters must be `. `). -/
def numberedLine (l : List Char) : List Char :=
  if l.takeWhile (fun c => c.isDigit) ≠ [] ∧
      ". ".data.isPrefixOf (l.dropWhile (fun c => c.isDigit)) ∧
      (l.dropWhile (fun c => c.isDigit)).drop 2 ≠ [] then
    liOpen ++ (l.dropWhile (fun c => c.isDigit)).drop 2 ++ liClose
  else l

/-- Line 54: `^---+$` → `<hr class="nuru-divider">` per line. -/
def hrLine (l : List Char) : List Char :=
  if 3 ≤ l.length ∧ l.all (fun c => c = '-') then hrTag else l

/-- Line 57: `.replace(/\n\n/g, '</p><p class="nuru-p">')`,
left-to-right and non-overlapping. -/
def paraScan : List Char → List Char
  | [] => []
  | [c] => [c]
  | c :: c2 :: r =>
    if c = '\n' ∧ c2 = '\n' then pBreak ++ paraScan r
    else c :: paraScan (c2 :: r)

/-- Line 58: `.replace(/\n/g, '<br>')`. -/
def brScan : List Char → List Char
  | [] => []
  | c :: r => if c = '\n' then brTag ++ brScan r else c :: brScan r

/-- Lines 28-58: all transformation passes in source order, before the
final paragraph wrap. -/
def mdCore (cs : List Char) : List Char :=
  let h := escapeHtml cs
  let h := mapLines h4Line h
  let h := mapLines h3Line h
  let h := boldPass h
  let h := italPass h
  let h := mapLines bulletLine h
  let h := ulWrapPass h
  let h := mapLines numberedLine h
  let h := mapLines hrLine h
  let h := paraScan h
  brScan h

/-- Lines 61-63: the final wrap condition
`!html.startsWith('<h') && !html.startsWith('<ul') && !html.startsWith('<ol')`. -/
def startsWithBlock (h : List Char) : Bool :=
  "<h".data.isPrefixOf h || "<ul".data.isPrefixOf h || "<ol".data.isPrefixOf h

/-- Embedding of `parseMarkdown` (part_000 lines 25-66).  A falsy
(empty) input returns the empty string without wrapping. -/
def parseMarkdown (s : String) : String :=
  if s = "" then ""
  else
    let h := mdCore s.data
    if startsWithBlock h then ⟨h⟩ else ⟨pOpen ++ h ++ pClose⟩

/-- All HTML fragments the renderer passes after the entity escape can
insert (used to reason about which substrings a pass can create). -/
def mdTags : List (List Char) :=
  [h4Open, h4Close, h3Open, h3Close, strongOpen, strongClose, emOpen, emClose,
    liOpen, liClose, ulOpen, ulClose, hrTag, pBreak, brTag, pOpen, pClose]

/-! ## Concrete instances used in witnesses and counterexamples -/

/-- An Audit-shaped context with a named top waste zone. -/
def auditCtxEx : HandoffContext :=
  { waste_score := some 62
    company_name := some "Acme Plumbing"
    total_hours_wasted := some 120
    top_waste_zones := some [JsZone.obj (some "invoicing")] }

/-- An Audit-shaped context whose first waste zone is a truthy object
without a `name` field. -/
def auditCtxNoName : HandoffContext :=
  { waste_score := some 70
    company_name := some "Acme"
    total_hours_wasted := some 40
    top_waste_zones := some [JsZone.obj none] }

/-- An ROI-shaped context. -/
def roiCtxEx : HandoffContext :=
  { process_name := some "invoicing"
    annual_savings := some 1234567
    roi_percentage := some 42
    breakeven_months := some 8
    risk_level := some "Low" }

/-- A Readiness-shaped context. -/
def readinessCtxEx : HandoffContext :=
  { overall_score := some 80
    readiness_level := some "Strong" }

/-- A probe environment in which only Tool #4 (Readiness) holds the
session. -/
def probeOnly4 : Tool → String → ProbeOutcome := fun t _ =>
  match t with
  | .tool4 => .success readinessCtxEx
  | _ => .failure

/-- The claim-side condition of C10 under which the fallback zone name
is used: `top_waste_zones` absent, empty, or with a falsy first
element. -/
def zonesMissingOrFalsy : Option (List JsZone) → Bool
  | none => true
  | some [] => true
  | some (.nullish :: _) => true
  | some (.obj _ :: _) => false

/-- A widget state ready to send " hello ". -/
def readyState : WidgetState :=
  { pending := false
    input := " hello "
    messages := [⟨"hi", false⟩]
    typing := false
    calls := []
    console := [] }

/-! ## General list lemmas: occurrence bookkeeping for the renderer -/

theorem infAppendLeft {α : Type} {t v : List α} (u : List α) (h : t <:+: v) :
    t <:+: u ++ v :=
  h.trans ( List.IsSuffix.isInfix (List.suffix_append u v))

theorem infAppendRight {α : Type} {t u : List α} (v : List α) (h : t <:+: u) :
    t <:+: u ++ v :=
  h.trans ( List.IsPrefix.isInfix (List.prefix_append u v))

theorem infCons {α : Type} {t v : List α} (c : α) (h : t <:+: v) : t <:+: c :: v :=
  infAppendLeft [c] h

theorem sufCons {α : Type} {t v : List α} (c : α) (h : t <:+ v) : t <:+ c :: v := by
  obtain ⟨s, hs⟩ := h
  exact ⟨c :: s, by simp [hs]⟩

theorem prefOfPrefAppend {α : Type} {q u v : List α} (h : q <+: u ++ v)
    (hlen : q.length ≤ u.length) : q <+: u := by
  have hq := List.prefix_iff_eq_take.mp h
  rw [List.take_append_of_le_length hlen] at hq
  rw [hq]
  exact List.take_prefix _ _

theorem prefSplitAppend {α : Type} {q u v : List α} (h : q <+: u ++ v)
    (hlen : u.length ≤ q.length) : ∃ q2, q = u ++ q2 ∧ q2 <+: v := by
  have hq := List.prefix_iff_eq_take.mp h
  obtain ⟨i, hi⟩ := Nat.exists_eq_add_of_le hlen
  rw [hi, List.take_append] at hq
  exact ⟨v.take i, hq, List.take_prefix _ _⟩

/-- Master decomposition: an occurrence in `u ++ v` lies in `u`, in
`v`, or straddles the boundary. -/
theorem infSplit {α : Type} {q u v : List α} (h : q <:+: u ++ v) :
    q <:+: u ∨ q <:+: v ∨
      ∃ q1 q2, q = q1 ++ q2 ∧ q1 ≠ [] ∧ q2 ≠ [] ∧ q1 <:+ u ∧ q2 <+: v := by
  induction u generalizing q with
  | nil => exact Or.inr (Or.inl (by simpa using h))
  | cons c u' ih =>
    rcases List.infix_cons_iff.mp h with hp | hi
    · match q, hp with
      | [], _ => exact Or.inl (List.nil_infix)
      | d :: q', hp =>
        have hdc := (List.cons_prefix_cons.mp hp).1
        have hp' := (List.cons_prefix_cons.mp hp).2
        by_cases hlen : q'.length ≤ u'.length
        · exact Or.inl ( List.IsPrefix.isInfix
            (List.cons_prefix_cons.mpr ⟨hdc, prefOfPrefAppend hp' hlen⟩))
        · obtain ⟨q2, hq, hq2⟩ := prefSplitAppend hp' (Nat.le_of_not_le hlen)
          have hq2ne : q2 ≠ [] := by
            intro hnil
            rw [hnil, List.append_nil] at hq
            exact hlen (le_of_eq (congrArg List.length hq))
          refine Or.inr (Or.inr ⟨d :: u', q2, ?_, by simp, hq2ne, ?_, hq2⟩)
          · simp [hq]
          · rw [hdc]
    · rcases ih hi with h1 | h2 | ⟨q1, q2, rfl, n1, n2, hs, hpv⟩
      · exact Or.inl (infCons c h1)
      · exact Or.inr (Or.inl h2)
      · exact Or.inr (Or.inr ⟨q1, q2, rfl, n1, n2, sufCons c hs, hpv⟩)

/-- A separator character not occurring in `t` splits occurrences. -/
theorem infSepSplit {α : Type} {t u v : List α} {c : α} (hne : t ≠ [])
    (hc : c ∉ t) (h : t <:+: u ++ c :: v) : t <:+: u ∨ t <:+: v := by
  rcases infSplit h with h1 | h2 | ⟨q1, q2, rfl, n1, n2, _, hpv⟩
  · exact Or.inl h1
  · rcases List.infix_cons_iff.mp h2 with hp | hi
    · match t, hne, hp with
      | d :: t', _, hp =>
        obtain ⟨rfl, _⟩ := List.cons_prefix_cons.mp hp
        exact absurd (by simp) hc
    · exact Or.inr hi
  · match q2, n2, hpv with
    | d :: q2', _, hpv =>
      obtain ⟨rfl, _⟩ := List.cons_prefix_cons.mp hpv
      exact absurd (by simp) hc

/-- An occurrence of `t` cannot start inside a block `p` none of whose
characters occur in `t`. -/
theorem infSkipChars {α : Type} {t p r : List α} (hne : t ≠ [])
    (hp : ∀ a ∈ p, a ∉ t) (h : t <:+: p ++ r) : t <:+: r := by
  rcases infSplit h with h1 | h2 | ⟨q1, q2, rfl, n1, n2, hs, _⟩
  · match t, hne, h1 with
    | d :: t', _, h1 => exact absurd (by simp) (hp d (h1.subset (by simp)))
  · exact h2
  · match q1, n1, hs with
    | d :: q1', _, hs => exact absurd (by simp) (hp d ( List.IsSuffix.subset hs (by simp)))

/-- No occurrence of `q = '<' :: qs` (with no further `<`) can be
created by gluing anything to the left of a block that starts with
`<`. -/
theorem infNoCreateOpen {qs u v v' : List Char} (hlt : '<' ∉ qs)
    (hv : v = '<' :: v') (h1 : ¬ ('<' :: qs) <:+: u) (h2 : ¬ ('<' :: qs) <:+: v) :
    ¬ ('<' :: qs) <:+: u ++ v := by
  intro h
  rcases infSplit h with hu | hv' | ⟨q1, q2, hq, n1, n2, _, hpv⟩
  · exact h1 hu
  · exact h2 hv'
  · match q1, n1, hq with
    | d :: q1', _, hq =>
      simp only [List.cons_append] at hq
      injection hq with hd hq'
      match q2, n2, hpv with
      | e :: q2', _, hpv =>
        have he : e = '<' := by
          rw [hv] at hpv
          exact (List.cons_prefix_cons.mp hpv).1
        apply hlt
        rw [hq', he]
        simp

/-- A non-empty suffix of `w ++ ['>']` contains `'>'`. -/
theorem memOfSufLast {q1 w : List Char} (n1 : q1 ≠ []) (hs : q1 <:+ w ++ ['>']) :
    '>' ∈ q1 := by
  have hrev : (w ++ ['>']).reverse = '>' :: w.reverse := by simp
  have hp : q1.reverse <+: '>' :: w.reverse := by
    rw [← hrev]
    exact List.reverse_prefix.mpr hs
  match hq : q1.reverse, n1 with
  | [], _ => simp_all
  | d :: r, _ =>
    rw [hq] at hp
    obtain ⟨rfl, _⟩ := List.cons_prefix_cons.mp hp
    have : '>' ∈ q1.reverse := by rw [hq]; simp
    simpa using this

/-- No occurrence of `q` (free of `'>'`) can be created by gluing
anything to the right of a block that ends with `>`. -/
theorem infNoCreateClose {q u u' v : List Char} (hgt : '>' ∉ q)
    (hu : u = u' ++ ['>']) (h1 : ¬ q <:+: u) (h2 : ¬ q <:+: v) :
    ¬ q <:+: u ++ v := by
  intro h
  rcases infSplit h with hl | hr | ⟨q1, q2, hq, n1, n2, hs, _⟩
  · exact h1 hl
  · exact h2 hr
  · rw [hu] at hs
    exact hgt (hq ▸ List.mem_append.mpr (Or.inl (memOfSufLast n1 hs)))
/-! ## Session identity: supporting lemmas -/

theorem freshSessionId_ne_empty (now : Nat) (rnd : String) :
    freshSessionId now rnd ≠ "" := by
  intro h
  have h2 := congrArg String.length h
  rw [freshSessionId] at h2
  simp only [String.length_append] at h2
  have h8 : "session_".length = 8 := rfl
  have h1 : "_".length = 1 := rfl
  have h0 : ("" : String).length = 0 := rfl
  rw [h8, h1, h0] at h2
  omega

theorem getSessionId_mem_caches (now : Nat) (rnd : String) (st : SessionStore) :
    (getSessionId now rnd st).2.1.mem = some (getSessionId now rnd st).1 := by
  unfold getSessionId
  cases hm : st.mem with
  | some s => simp [hm]
  | none =>
    cases hs : st.store with
    | some s => by_cases h : s = "" <;> simp [hm, hs, h]
    | none => simp [hm, hs]

theorem getSessionId_of_mem {now : Nat} {rnd : String} {st : SessionStore} {s : String}
    (h : st.mem = some s) : getSessionId now rnd st = (s, st, 0) := by
  unfold getSessionId
  rw [h]

theorem getSessionId_store_of_fresh_view (now : Nat) (rnd : String)
    (store0 : Option String) :
    (getSessionId now rnd ⟨none, store0⟩).2.1.store
      = some (getSessionId now rnd ⟨none, store0⟩).1 := by
  unfold getSessionId
  cases store0 with
  | some s => by_cases h : s = "" <;> simp [h]
  | none => simp

theorem getSessionId_result_ne_empty (now : Nat) (rnd : String)
    (store0 : Option String) :
    (getSessionId now rnd ⟨none, store0⟩).1 ≠ "" := by
  unfold getSessionId
  cases store0 with
  | some s =>
    by_cases h : s = ""
    · simp only [h, if_pos rfl]
      exact freshSessionId_ne_empty now rnd
    · simp [h]
  | none => simpa using freshSessionId_ne_empty now rnd

theorem getSessionId_reads_entry {n : Nat} {r : String} {s : String} (h : s ≠ "") :
    (getSessionId n r ⟨none, some s⟩).1 = s := by
  unfold getSessionId
  simp [h]

/-- C9: `getSessionId` is idempotent and stable.  (a) A second call in
the same page view returns the identical string, performs no storage
read, and leaves the state unchanged; (b) a call in a fresh page view
(in-memory variable reset) over the storage left by a first fresh-view
call returns the same string; (c) once the storage entry holds a
(non-empty) identifier, no call ever changes it. -/
theorem getSessionId_stable :
    ∀ (store0 : Option String) (st : SessionStore) (n1 n2 n3 : Nat)
      (r1 r2 r3 : String),
      ((getSessionId n2 r2 (getSessionId n1 r1 st).2.1).1 = (getSessionId n1 r1 st).1
        ∧ (getSessionId n2 r2 (getSessionId n1 r1 st).2.1).2.2 = 0
        ∧ (getSessionId n2 r2 (getSessionId n1 r1 st).2.1).2.1 = (getSessionId n1 r1 st).2.1)
      ∧ ((getSessionId n3 r3 ⟨none, (getSessionId n1 r1 ⟨none, store0⟩).2.1.store⟩).1
          = (getSessionId n1 r1 ⟨none, store0⟩).1)
      ∧ (∀ s, st.store = some s → s ≠ "" →
          (getSessionId n1 r1 st).2.1.store = some s) := by
  intro store0 st n1 n2 n3 r1 r2 r3
  refine ⟨?_, ?_, ?_⟩
  · rw [getSessionId_of_mem (getSessionId_mem_caches n1 r1 st)]
    exact ⟨rfl, rfl, rfl⟩
  · rw [getSessionId_store_of_fresh_view n1 r1 store0]
    exact getSessionId_reads_entry (getSessionId_result_ne_empty n1 r1 store0)
  · intro s hs hne
    unfold getSessionId
    cases hm : st.mem with
    | some s' => simp [hm, hs]
    | none => simp [hm, hs, hne]

/-- Witness for C9 at a concrete state: the persisted entry "sid1" is
non-empty and is left unchanged by a call. -/
theorem getSessionId_stable_witness :
    ("sid1" : String) ≠ ""
      ∧ (getSessionId 7 "k3x" ⟨none, some "sid1"⟩).2.1.store = some "sid1" :=
  ⟨by decide, (getSessionId_stable none ⟨none, some "sid1"⟩ 7 8 9 "k3x" "q" "z").2.2
    "sid1" rfl (by decide)⟩

/-! ## Chat transport theorems -/

/-- C5: at most one outstanding chat request.  A call while the
pending flag is set is a complete no-op (no network call, no appended
message, no state change); a call that finds the flag clear always
leaves it clear again on every exit path (reply, error body, empty
body, transport failure); and a started request issues exactly one
network call. -/
theorem sendNuruMessage_single_flight :
    ∀ (sid : String) (actx : Option HandoffContext) (net : NetOutcome)
      (st : WidgetState),
      (st.pending = true → sendNuruMessage sid actx net st = st)
      ∧ (st.pending = false → (sendNuruMessage sid actx net st).pending = false)
      ∧ (st.pending = false → jsTrim st.input ≠ "" →
          (sendNuruMessage sid actx net st).calls
            = st.calls ++ [⟨jsTrim st.input, sid, actx⟩]) := by
  intro sid actx net st
  refine ⟨fun h => by simp [sendNuruMessage, h], ?_, ?_⟩
  · intro h
    unfold sendNuruMessage
    simp only [h, Bool.false_eq_true, if_false]
    by_cases ht : jsTrim st.input = ""
    · simp [ht, h]
    · simp only [ht, if_false]
      cases net with
      | response r e =>
        by_cases hr : jsTruthyStr r = true
        · simp [hr]
        · by_cases he : jsTruthyStr e = true <;>
            simp [hr, he]
      | failure => simp
  · intro h ht
    unfold sendNuruMessage
    simp only [h, Bool.false_eq_true, if_false, ht, if_false]
    cases net with
    | response r e =>
      by_cases hr : jsTruthyStr r = true
      · simp [hr]
      · by_cases he : jsTruthyStr e = true <;> simp [hr, he]
    | failure => simp

/-- Witness for C5 at a concrete state: a pending state is returned
unchanged, and a started request from `readyState` ends with the flag
clear and exactly one issued call. -/
theorem sendNuruMessage_single_flight_witness :
    ({ readyState with pending := true } : WidgetState).pending = true
      ∧ sendNuruMessage "sid" none (.response (some "hello!") none)
          { readyState with pending := true } = { readyState with pending := true }
      ∧ readyState.pending = false
      ∧ (sendNuruMessage "sid" none (.response (some "hello!") none) readyState).pending
          = false
      ∧ (sendNuruMessage "sid" none (.response (some "hello!") none) readyState).calls
          = readyState.calls ++ [⟨"hello", "sid", none⟩] := by
  refine ⟨rfl, ?_, rfl, ?_, ?_⟩
  · exact (sendNuruMessage_single_flight "sid" none (.response (some "hello!") none)
      { readyState with pending := true }).1 rfl
  · exact (sendNuruMessage_single_flight "sid" none (.response (some "hello!") none)
      readyState).2.1 rfl
  · have h := (sendNuruMessage_single_flight "sid" none (.response (some "hello!") none)
      readyState).2.2 rfl (by decide)
    exact h.trans (by decide)

/-- C6: a backend response whose body carries an `error` field (and no
`response` field) appends exactly one fixed apology message after the
user's message, removes the typing indicator, clears the pending flag,
and routes the raw error text only to the diagnostic console. -/
theorem sendNuruMessage_error_path :
    ∀ (sid : String) (actx : Option HandoffContext) (st : WidgetState) (e : String),
      st.pending = false → jsTrim st.input ≠ "" → e ≠ "" →
      (sendNuruMessage sid actx (.response none (some e)) st).messages
          = st.messages ++ [⟨jsTrim st.input, true⟩, ⟨apologyBackendError, false⟩]
        ∧ (sendNuruMessage sid actx (.response none (some e)) st).typing = false
        ∧ (sendNuruMessage sid actx (.response none (some e)) st).console
          = st.console ++ ["Backend error: " ++ e]
        ∧ (sendNuruMessage sid actx (.response none (some e)) st).pending = false := by
  intro sid actx st e hp ht he
  unfold sendNuruMessage
  simp [hp, ht, jsTruthyStr, he]

/-- Witness for C6 at a concrete state and error body `{error: "x"}`. -/
theorem sendNuruMessage_error_path_witness :
    readyState.pending = false ∧ jsTrim readyState.input ≠ "" ∧ ("x" : String) ≠ ""
      ∧ (sendNuruMessage "sid" none (.response none (some "x")) readyState).messages
          = readyState.messages ++ [⟨"hello", true⟩, ⟨apologyBackendError, false⟩]
      ∧ (sendNuruMessage "sid" none (.response none (some "x")) readyState).typing = false
      ∧ (sendNuruMessage "sid" none (.response none (some "x")) readyState).console
          = readyState.console ++ ["Backend error: x"] := by
  have h := sendNuruMessage_error_path "sid" none readyState "x" rfl (by decide) (by decide)
  exact ⟨rfl, by decide, by decide, h.1.trans (by decide), h.2.1, h.2.2.1.trans (by decide)⟩

/-! ## Context resolver theorems -/

/-- C7: a page fragment without a `session` query parameter resolves
to `null` immediately, and none of the three upstream endpoints is
contacted. -/
theorem loadAuditContext_no_session_param :
    ∀ (hash : String) (probe : Tool → String → ProbeOutcome),
      getSessionParam hash = none → loadAuditContext hash probe = (none, []) := by
  intro hash probe h
  unfold loadAuditContext
  rw [h]

/-- Witness for C7: the fragment `#/chat` has no `session` parameter,
and resolution returns `null` with an empty probe list even in an
environment in which every probe would succeed. -/
theorem loadAuditContext_no_session_param_witness :
    getSessionParam "#/chat" = none
      ∧ loadAuditContext "#/chat" (fun _ _ => .success readinessCtxEx) = (none, []) :=
  ⟨by decide,
    loadAuditContext_no_session_param "#/chat" (fun _ _ => .success readinessCtxEx)
      (by decide)⟩

/-- C1: context resolution probes Tool #5 (ROI), then Tool #4
(Readiness), then Tool #3 (Audit), sequentially; the first probe that
returns a success status supplies the resolved context and no later
endpoint is contacted.  In particular, when only the second
(Readiness) probe succeeds, the result is that probe's body and the
Audit endpoint is never called. -/
theorem loadAuditContext_priority_order :
    ∀ (hash : String) (probe : Tool → String → ProbeOutcome) (sid : String),
      getSessionParam hash = some sid → sid ≠ "" →
      (∀ c, probe .tool5 sid = .success c →
          loadAuditContext hash probe = (some c, [.tool5]))
      ∧ (∀ c, probe .tool5 sid = .failure → probe .tool4 sid = .success c →
          loadAuditContext hash probe = (some c, [.tool5, .tool4])
            ∧ Tool.tool3 ∉ (loadAuditContext hash probe).2)
      ∧ (∀ c, probe .tool5 sid = .failure → probe .tool4 sid = .failure →
          probe .tool3 sid = .success c →
          loadAuditContext hash probe = (some c, [.tool5, .tool4, .tool3])) := by
  intro hash probe sid hs hne
  refine ⟨?_, ?_, ?_⟩
  · intro c h5
    unfold loadAuditContext
    rw [hs]
    simp only [hne, if_false]
    rw [h5]
  · intro c h5 h4
    have he : loadAuditContext hash probe = (some c, [.tool5, .tool4]) := by
      unfold loadAuditContext
      rw [hs]
      simp only [hne, if_false]
      rw [h5, h4]
    refine ⟨he, ?_⟩
    rw [he]
    simp
  · intro c h5 h4 h3
    unfold loadAuditContext
    rw [hs]
    simp only [hne, if_false]
    rw [h5, h4, h3]

/-- Witness for C1: with session id `abc123` in the fragment and a
probe environment in which only Tool #4 succeeds, resolution returns
the Readiness body having probed exactly Tools #5 and #4. -/
theorem loadAuditContext_priority_order_witness :
    getSessionParam "#/chat?session=abc123" = some "abc123"
      ∧ ("abc123" : String) ≠ ""
      ∧ probeOnly4 .tool5 "abc123" = .failure
      ∧ probeOnly4 .tool4 "abc123" = .success readinessCtxEx
      ∧ loadAuditContext "#/chat?session=abc123" probeOnly4
          = (some readinessCtxEx, [.tool5, .tool4])
      ∧ Tool.tool3 ∉ (loadAuditContext "#/chat?session=abc123" probeOnly4).2 := by
  have h := (loadAuditContext_priority_order "#/chat?session=abc123" probeOnly4 "abc123"
    (by decide) (by decide)).2.1 readinessCtxEx rfl rfl
  exact ⟨by decide, by decide, rfl, rfl, h.1, h.2⟩

/-! ## Greeting synthesizer theorems -/

set_option maxRecDepth 16384 in
/-- Counterexample to C3: on the same Audit-shaped input, two
evaluations of `generateGreeting` with different `Math.random()` draws
return different greeting strings (the "similar businesses analyzed"
count differs), so the function is not deterministic in its input. -/
theorem generateGreeting_random_dependence :
    generateGreeting (some auditCtxEx) 0 ≠ generateGreeting (some auditCtxEx) 1 := by
  decide

/-- C3 (amended): `generateGreeting` has no side effects and is
deterministic in the pair (input, random draw); the draw influences
only the Audit branch, so on every input that does not take the Audit
branch the result is independent of the draw. -/
theorem generateGreeting_deterministic_off_audit :
    ∀ (ctx : Option HandoffContext) (r1 r2 : Nat),
      takesAuditBranch ctx = false → generateGreeting ctx r1 = generateGreeting ctx r2 := by
  intro ctx r1 r2 h
  match ctx with
  | none => rfl
  | some c =>
    unfold generateGreeting
    unfold takesAuditBranch at h
    cases hs : c.annual_savings with
    | some sav => simp [hs]
    | none =>
      cases ho : c.overall_score with
      | some score => simp [hs, ho]
      | none =>
        cases hw : c.waste_score with
        | some ws => simp [hs, ho, hw] at h
        | none => simp [hs, ho, hw]

/-- Witness for C3 (amended) on an ROI-shaped input and two distinct
draws. -/
theorem generateGreeting_deterministic_off_audit_witness :
    takesAuditBranch (some roiCtxEx) = false
      ∧ generateGreeting (some roiCtxEx) 0 = generateGreeting (some roiCtxEx) 9 :=
  ⟨by decide, generateGreeting_deterministic_off_audit (some roiCtxEx) 0 9 (by decide)⟩

set_option maxRecDepth 65536 in
/-- Counterexample to C10: on an Audit-shaped context whose first
waste zone is a truthy object without a `name` field, the greeting
does not substitute the fallback zone name "operations"; it
interpolates the undefined name as "undefined". -/
theorem generateGreeting_zone_without_name :
    ¬ ("operations".data <:+: ((generateGreeting (some auditCtxNoName) 0).getD "").data)
      ∧ "Top waste zone: undefined".data
          <:+: ((generateGreeting (some auditCtxNoName) 0).getD "").data := by
  constructor
  · decide
  · decide

/-- C10 (amended): on every Audit-shaped context the greeting is
produced without failure; when `top_waste_zones` is absent, empty, or
has a falsy first element, the fixed fallback zone name "operations"
appears in the greeting.  (When the first element is a truthy object
without a `name`, the undefined name is interpolated instead -- see
the counterexample.) -/
theorem generateGreeting_audit_fallback :
    ∀ (c : HandoffContext) (r : Nat) (ws : Int),
      c.annual_savings = none → c.overall_score = none → c.waste_score = some ws →
      ∃ g, generateGreeting (some c) r = some g
        ∧ (zonesMissingOrFalsy c.top_waste_zones = true →
            "Top waste zone: operations".data <:+: g.data) := by
  intro c r ws ha ho hw
  refine ⟨_, by simp only [generateGreeting, ha, ho, hw]; rfl, ?_⟩
  intro hz
  have htz : topZoneOf c.top_waste_zones = "operations" := by
    unfold zonesMissingOrFalsy at hz
    unfold topZoneOf
    match hv : c.top_waste_zones with
    | none => rfl
    | some [] => rfl
    | some (.nullish :: _) => rfl
    | some (.obj _ :: _) =>
      rw [hv] at hz
      simp at hz
  rw [htz]
  have hsplit : "Top waste zone: operations".data
      = "Top waste zone: ".data ++ "operations".data := by decide
  have key : ∀ y : List Char, "Top waste zone: operations".data
      <:+: "Top waste zone: ".data ++ ("operations".data ++ y) := by
    intro y
    exact ⟨[], y, by rw [hsplit]; simp [List.append_assoc]⟩
  simp only [String.data_append, List.append_assoc]
  exact infAppendLeft _ (infAppendLeft _ (infAppendLeft _ (infAppendLeft _
    (infAppendLeft _ (infAppendLeft _ (infAppendLeft _ (infAppendLeft _ (key _))))))))

/-- Witness for C10 (amended) on a concrete Audit-shaped context with
`top_waste_zones` absent. -/
theorem generateGreeting_audit_fallback_witness :
    ∃ g, generateGreeting
        (some { waste_score := some 55, company_name := some "Kv",
                total_hours_wasted := some 9 }) 3 = some g
      ∧ "Top waste zone: operations".data <:+: g.data := by
  obtain ⟨g, hg, him⟩ := generateGreeting_audit_fallback
    { waste_score := some 55, company_name := some "Kv", total_hours_wasted := some 9 }
    3 55 rfl rfl rfl
  exact ⟨g, hg, him rfl⟩

/-! ## Markdown renderer: the final wrap (C2) -/

/-- Counterexample to C2: the input `---` renders to a bare divider
element.  A divider is neither a heading element nor a list element,
yet the fragment is NOT wrapped in a paragraph, because the
`startsWith('<h')` check also matches `<hr`. -/
theorem parseMarkdown_hr_not_wrapped :
    parseMarkdown "---" = "<hr class=\"nuru-divider\">"
      ∧ ¬ ("<h3".data <+: (parseMarkdown "---").data)
      ∧ ¬ ("<h4".data <+: (parseMarkdown "---").data)
      ∧ ¬ ("<ul".data <+: (parseMarkdown "---").data)
      ∧ ¬ ("<ol".data <+: (parseMarkdown "---").data)
      ∧ ¬ ("<p".data <+: (parseMarkdown "---").data) := by
  refine ⟨by decide, by decide, by decide, by decide, by decide, by decide⟩

/-- C2 (amended): for a non-empty input, if the rendered fragment does
not start with `<h` (which covers headings and also the `<hr` divider)
nor with `<ul` or `<ol`, the whole fragment is wrapped in a paragraph
element; a fragment whose pre-wrap render starts with the divider
`<hr` is returned unwrapped. -/
theorem parseMarkdown_wrap_rule :
    ∀ s : String, s ≠ "" →
      ((¬ ("<h".data <+: (parseMarkdown s).data)
          ∧ ¬ ("<ul".data <+: (parseMarkdown s).data)
          ∧ ¬ ("<ol".data <+: (parseMarkdown s).data)) →
        (parseMarkdown s).data = pOpen ++ mdCore s.data ++ pClose)
      ∧ ("<hr".data <+: mdCore s.data → (parseMarkdown s).data = mdCore s.data) := by
  intro s hs
  unfold parseMarkdown
  simp only [hs, if_false]
  by_cases hb : startsWithBlock (mdCore s.data) = true
  · simp only [hb, if_true]
    constructor
    · intro ⟨h1, h2, h3⟩
      exfalso
      unfold startsWithBlock at hb
      rcases Bool.or_eq_true_iff.mp hb with hb' | h3'
      · rcases Bool.or_eq_true_iff.mp hb' with h1' | h2'
        · exact h1 (List.isPrefixOf_iff_prefix.mp h1')
        · exact h2 (List.isPrefixOf_iff_prefix.mp h2')
      · exact h3 (List.isPrefixOf_iff_prefix.mp h3')
    · intro _
      trivial
  · simp only [hb, if_false]
    constructor
    · intro _
      rfl
    · intro hhr
      exfalso
      apply hb
      unfold startsWithBlock
      have : "<h".data <+: mdCore s.data := List.IsPrefix.trans (by decide) hhr
      rw [List.isPrefixOf_iff_prefix.mpr this]
      rfl

/-- Witness for C2 (amended): `---` renders unwrapped (divider-first),
while plain text is wrapped in exactly one paragraph element. -/
theorem parseMarkdown_wrap_rule_witness :
    ("---" : String) ≠ "" ∧ "<hr".data <+: mdCore "---".data
      ∧ (parseMarkdown "---").data = mdCore "---".data
      ∧ ("plain" : String) ≠ ""
      ∧ (parseMarkdown "plain").data = pOpen ++ mdCore "plain".data ++ pClose := by
  refine ⟨by decide, by decide, (parseMarkdown_wrap_rule "---" (by decide)).2 (by decide),
    by decide, (parseMarkdown_wrap_rule "plain" (by decide)).1 ⟨by decide, by decide, by decide⟩⟩

/-! ## Line structure lemmas -/

theorem joinNl_cons₂ (l l2 : List Char) (ls : List (List Char)) :
    joinNl (l :: l2 :: ls) = l ++ '\n' :: joinNl (l2 :: ls) := rfl

theorem splitNl_ne_nil (cs : List Char) : splitNl cs ≠ [] := by
  match cs with
  | [] => simp [splitNl]
  | c :: r =>
    unfold splitNl
    by_cases hc : c = '\n'
    · simp [hc]
    · simp only [hc, if_false]
      split <;> simp

theorem joinNl_splitNl (cs : List Char) : joinNl (splitNl cs) = cs := by
  induction cs with
  | nil => rfl
  | cons c r ih =>
    by_cases hc : c = '\n'
    · subst hc
      show joinNl ([] :: splitNl r) = '\n' :: r
      match hr : splitNl r with
      | [] => exact absurd hr (splitNl_ne_nil r)
      | l :: ls =>
        rw [joinNl_cons₂, List.nil_append, ← hr, ih]
    · have h : splitNl (c :: r) =
          match splitNl r with
          | l :: ls => (c :: l) :: ls
          | [] => [[c]] := by
        conv_lhs => unfold splitNl
        simp [hc]
      match hr : splitNl r with
      | [] => exact absurd hr (splitNl_ne_nil r)
      | l :: ls =>
        rw [hr] at h
        rw [h]
        rw [hr] at ih
        match ls with
        | [] =>
          show c :: l = c :: r
          rw [show joinNl [l] = l from rfl] at ih
          rw [ih]
        | l2 :: ls' =>
          rw [joinNl_cons₂] at ih ⊢
          rw [← ih]
          rfl

theorem infJoinOfMem {l : List Char} {ls : List (List Char)} (h : l ∈ ls) :
    l <:+: joinNl ls := by
  induction ls with
  | nil => simp at h
  | cons l0 ls ih =>
    rcases List.mem_cons.mp h with rfl | hmem
    · match ls with
      | [] => exact List.infix_refl l
      | l2 :: ls' =>
        rw [joinNl_cons₂]
        exact infAppendRight _ (List.infix_refl l)
    · match ls with
      | [] => simp at hmem
      | l2 :: ls' =>
        rw [joinNl_cons₂]
        exact infAppendLeft _ (infCons _ (ih hmem))

theorem memJoinOfInf {t : List Char} (hne : t ≠ []) (hnl : '\n' ∉ t) :
    ∀ ls : List (List Char), t <:+: joinNl ls → ∃ l ∈ ls, t <:+: l := by
  intro ls
  induction ls with
  | nil =>
    intro h
    exact absurd (List.eq_nil_of_infix_nil h) hne
  | cons l0 ls ih =>
    intro h
    match ls with
    | [] => exact ⟨l0, by simp, by simpa [joinNl] using h⟩
    | l2 :: ls' =>
      rw [joinNl_cons₂] at h
      rcases infSepSplit hne hnl h with h1 | h2
      · exact ⟨l0, by simp, h1⟩
      · obtain ⟨l, hl, hin⟩ := ih h2
        exact ⟨l, by simp [hl], hin⟩

theorem infLineOfSplit {t : List Char} (hne : t ≠ []) (hnl : '\n' ∉ t)
    {cs : List Char} (h : t <:+: cs) : ∃ l ∈ splitNl cs, t <:+: l :=
  memJoinOfInf hne hnl (splitNl cs) (by rwa [joinNl_splitNl])

theorem lineInfOfMem {l : List Char} {cs : List Char} (h : l ∈ splitNl cs) :
    l <:+: cs := by
  have := infJoinOfMem h
  rwa [joinNl_splitNl] at this

/-- A per-line transform that keeps occurrences of `t` lifts to
`mapLines`. -/
theorem mapLinesKeeps {t : List Char} (hne : t ≠ []) (hnl : '\n' ∉ t)
    {f : List Char → List Char} (hf : ∀ l, t <:+: l → t <:+: f l)
    {cs : List Char} (h : t <:+: cs) : t <:+: mapLines f cs := by
  obtain ⟨l, hl, hin⟩ := infLineOfSplit hne hnl h
  exact (hf l hin).trans (infJoinOfMem (List.mem_map_of_mem f hl))

/-- A per-line transform that creates no occurrence of `q` lifts to
`mapLines`. -/
theorem mapLinesNoCreate {q : List Char} (hne : q ≠ []) (hnl : '\n' ∉ q)
    {f : List Char → List Char} (hf : ∀ l, ¬ q <:+: l → ¬ q <:+: f l)
    {cs : List Char} (h : ¬ q <:+: cs) : ¬ q <:+: mapLines f cs := by
  intro habs
  obtain ⟨l', hl', hin⟩ := memJoinOfInf hne hnl _ habs
  obtain ⟨l, hl, rfl⟩ := List.mem_map.mp hl'
  exact hf l (fun hq => h (hq.trans (lineInfOfMem hl))) hin

/-! ## Entity escape lemmas -/

theorem escAmp_append (u v : List Char) : escAmp (u ++ v) = escAmp u ++ escAmp v := by
  induction u with
  | nil => rfl
  | cons c u ih =>
    show escAmp (c :: (u ++ v)) = escAmp (c :: u) ++ escAmp v
    by_cases hc : c = '&' <;> simp [escAmp, hc, ih]

theorem escLt_append (u v : List Char) : escLt (u ++ v) = escLt u ++ escLt v := by
  induction u with
  | nil => rfl
  | cons c u ih =>
    show escLt (c :: (u ++ v)) = escLt (c :: u) ++ escLt v
    by_cases hc : c = '<' <;> simp [escLt, hc, ih]

theorem escGt_append (u v : List Char) : escGt (u ++ v) = escGt u ++ escGt v := by
  induction u with
  | nil => rfl
  | cons c u ih =>
    show escGt (c :: (u ++ v)) = escGt (c :: u) ++ escGt v
    by_cases hc : c = '>' <;> simp [escGt, hc, ih]

theorem escapeHtml_append (u v : List Char) :
    escapeHtml (u ++ v) = escapeHtml u ++ escapeHtml v := by
  unfold escapeHtml
  rw [escAmp_append, escLt_append, escGt_append]

theorem escLt_no_lt (cs : List Char) : '<' ∉ escLt cs := by
  induction cs with
  | nil => simp [escLt]
  | cons c r ih =>
    by_cases hc : c = '<'
    · rw [show escLt (c :: r) = '&' :: 'l' :: 't' :: ';' :: escLt r from by simp [escLt, hc]]
      intro h
      simp only [List.mem_cons] at h
      rcases h with h | h | h | h | h
      · exact absurd h (by decide)
      · exact absurd h (by decide)
      · exact absurd h (by decide)
      · exact absurd h (by decide)
      · exact ih h
    · rw [show escLt (c :: r) = c :: escLt r from by simp [escLt, hc]]
      intro h
      rcases List.mem_cons.mp h with h1 | h2
      · exact hc h1.symm
      · exact ih h2

theorem escGt_keeps_no_lt {cs : List Char} (h : '<' ∉ cs) : '<' ∉ escGt cs := by
  induction cs with
  | nil => simp [escGt]
  | cons c r ih =>
    have hc : c ≠ '<' := fun hh => h (by simp [hh])
    have hr : '<' ∉ r := fun hh => h (by simp [hh])
    by_cases hg : c = '>'
    · rw [show escGt (c :: r) = '&' :: 'g' :: 't' :: ';' :: escGt r from by simp [escGt, hg]]
      intro hx
      simp only [List.mem_cons] at hx
      rcases hx with hx | hx | hx | hx | hx
      · exact absurd hx (by decide)
      · exact absurd hx (by decide)
      · exact absurd hx (by decide)
      · exact absurd hx (by decide)
      · exact ih hr hx
    · rw [show escGt (c :: r) = c :: escGt r from by simp [escGt, hg]]
      intro hx
      rcases List.mem_cons.mp hx with h1 | h2
      · exact hc h1.symm
      · exact ih hr h2

theorem escapeHtml_no_lt (cs : List Char) : '<' ∉ escapeHtml cs :=
  escGt_keeps_no_lt (escLt_no_lt (escAmp cs))

/-- Any pattern starting with `<` is absent from the escaped text. -/
theorem escapeHtml_no_open {qs : List Char} (cs : List Char) :
    ¬ ('<' :: qs) <:+: escapeHtml cs := by
  intro h
  exact escapeHtml_no_lt cs (h.subset (by simp))

/-- The escape turns an occurrence of `<script>` into
`&lt;script&gt;`. -/
theorem escapeHtml_keeps_script {cs : List Char}
    (h : "<script>".data <:+: cs) :
    "&lt;script&gt;".data <:+: escapeHtml cs := by
  obtain ⟨u, v, huv⟩ := h
  rw [← huv, escapeHtml_append, escapeHtml_append]
  have : escapeHtml "<script>".data = "&lt;script&gt;".data := by decide
  rw [this]
  exact infAppendRight _ (infAppendLeft _ (List.infix_refl _))
/-! ## No-creation combinator for tag-wrapped segments -/

/-- Wrapping a segment between a block ending in `>` and a block
starting with `<` cannot create an occurrence of a pattern
`'<' :: qs` that avoids `<` (after the head) and `>`. -/
theorem infNoCreateTagWrap {qs : List Char} (hlt : '<' ∉ qs) (hgt : '>' ∉ '<' :: qs)
    {opn mid cls : List Char}
    (hopn : opn.getLast? = some '>') (hcls : cls.head? = some '<')
    (h1 : ¬ ('<' :: qs) <:+: opn) (h2 : ¬ ('<' :: qs) <:+: mid)
    (h3 : ¬ ('<' :: qs) <:+: cls) :
    ¬ ('<' :: qs) <:+: opn ++ mid ++ cls := by
  obtain ⟨opn', hopn'⟩ := List.getLast?_eq_some_iff.mp hopn
  match cls, hcls with
  | c :: cls', hcls =>
    have hc : c = '<' := by simpa using hcls
    subst hc
    rw [List.append_assoc]
    exact infNoCreateClose hgt hopn' h1
      (infNoCreateOpen hlt rfl h2 h3)

/-! ## Per-line pass lemmas -/

theorem headerLineEq {pre : List Char} {l : List Char}
    (h : pre.isPrefixOf l = true) : l = pre ++ l.drop pre.length := by
  obtain ⟨rest, hrest⟩ := List.isPrefixOf_iff_prefix.mp h
  rw [← hrest]
  simp

theorem h4Line_keeps {t : List Char} (hne : t ≠ []) (hhash : '#' ∉ t) (hsp : ' ' ∉ t)
    (l : List Char) (h : t <:+: l) : t <:+: h4Line l := by
  unfold h4Line
  split
  · rename_i hcond
    have hl := headerLineEq hcond.1
    rw [show ("### ".data : List Char).length = 4 from rfl] at hl
    have hchars : ∀ a ∈ "### ".data, a ∉ t := by
      intro a ha
      rcases (by simpa using ha : a = '#' ∨ a = '#' ∨ a = '#' ∨ a = ' ') with rfl | rfl | rfl | rfl
      · exact hhash
      · exact hhash
      · exact hhash
      · exact hsp
    have h2 : t <:+: l.drop 4 := infSkipChars hne hchars (hl ▸ h)
    exact infAppendRight _ (infAppendLeft _ h2)
  · exact h

theorem h4Line_nocreate {qs : List Char} (hlt : '<' ∉ qs) (hgt : '>' ∉ '<' :: qs)
    (ho : ¬ ('<' :: qs) <:+: h4Open) (hc : ¬ ('<' :: qs) <:+: h4Close)
    (l : List Char) (h : ¬ ('<' :: qs) <:+: l) : ¬ ('<' :: qs) <:+: h4Line l := by
  unfold h4Line
  split
  · exact infNoCreateTagWrap hlt hgt (by decide) (by decide) ho
      (fun hq => h (hq.trans ⟨l.take 4, [], by simp⟩)) hc
  · exact h

theorem h3Line_keeps {t : List Char} (hne : t ≠ []) (hhash : '#' ∉ t) (hsp : ' ' ∉ t)
    (l : List Char) (h : t <:+: l) : t <:+: h3Line l := by
  unfold h3Line
  split
  · rename_i hcond
    have hl := headerLineEq hcond.1
    rw [show ("## ".data : List Char).length = 3 from rfl] at hl
    have hchars : ∀ a ∈ "## ".data, a ∉ t := by
      intro a ha
      rcases (by simpa using ha : a = '#' ∨ a = '#' ∨ a = ' ') with rfl | rfl | rfl
      · exact hhash
      · exact hhash
      · exact hsp
    have h2 : t <:+: l.drop 3 := infSkipChars hne hchars (hl ▸ h)
    exact infAppendRight _ (infAppendLeft _ h2)
  · exact h

theorem h3Line_nocreate {qs : List Char} (hlt : '<' ∉ qs) (hgt : '>' ∉ '<' :: qs)
    (ho : ¬ ('<' :: qs) <:+: h3Open) (hc : ¬ ('<' :: qs) <:+: h3Close)
    (l : List Char) (h : ¬ ('<' :: qs) <:+: l) : ¬ ('<' :: qs) <:+: h3Line l := by
  unfold h3Line
  split
  · exact infNoCreateTagWrap hlt hgt (by decide) (by decide) ho
      (fun hq => h (hq.trans ⟨l.take 3, [], by simp⟩)) hc
  · exact h

theorem bulletLine_keeps {t : List Char} (hne : t ≠ []) (hdash : '-' ∉ t)
    (hdot : '•' ∉ t) (hsp : ' ' ∉ t)
    (l : List Char) (h : t <:+: l) : t <:+: bulletLine l := by
  unfold bulletLine
  split
  · rename_i hcond
    have h2 : t <:+: l.drop 2 := by
      rcases hcond.1 with hp | hp
      · have hl := headerLineEq hp
        rw [show ("- ".data : List Char).length = 2 from rfl] at hl
        refine infSkipChars hne ?_ (hl ▸ h)
        intro a ha
        rcases (by simpa using ha : a = '-' ∨ a = ' ') with rfl | rfl
        · exact hdash
        · exact hsp
      · have hl := headerLineEq hp
        rw [show ("• ".data : List Char).length = 2 from rfl] at hl
        refine infSkipChars hne ?_ (hl ▸ h)
        intro a ha
        rcases (by simpa using ha : a = '•' ∨ a = ' ') with rfl | rfl
        · exact hdot
        · exact hsp
    exact infAppendRight _ (infAppendLeft _ h2)
  · exact h

theorem bulletLine_nocreate {qs : List Char} (hlt : '<' ∉ qs) (hgt : '>' ∉ '<' :: qs)
    (ho : ¬ ('<' :: qs) <:+: liOpen) (hc : ¬ ('<' :: qs) <:+: liClose)
    (l : List Char) (h : ¬ ('<' :: qs) <:+: l) : ¬ ('<' :: qs) <:+: bulletLine l := by
  unfold bulletLine
  split
  · exact infNoCreateTagWrap hlt hgt (by decide) (by decide) ho
      (fun hq => h (hq.trans ⟨l.take 2, [], by simp⟩)) hc
  · exact h

theorem numberedLine_keeps {t : List Char} (hne : t ≠ [])
    (hdig : ∀ c, c.isDigit = true → c ∉ t) (hdot : '.' ∉ t) (hsp : ' ' ∉ t)
    (l : List Char) (h : t <:+: l) : t <:+: numberedLine l := by
  unfold numberedLine
  split
  · rename_i hcond
    have hsplitl : l = l.takeWhile (fun c => c.isDigit)
        ++ l.dropWhile (fun c => c.isDigit) := (List.takeWhile_append_dropWhile _ _).symm
    have h2 : t <:+: l.dropWhile (fun c => c.isDigit) := by
      refine infSkipChars hne ?_ (hsplitl ▸ h)
      intro a ha
      exact hdig a (List.mem_takeWhile_imp ha)
    have hrest := headerLineEq hcond.2.1
    rw [show (". ".data : List Char).length = 2 from rfl] at hrest
    have h3 : t <:+: (l.dropWhile (fun c => c.isDigit)).drop 2 := by
      refine infSkipChars hne ?_ (hrest ▸ h2)
      intro a ha
      rcases (by simpa using ha : a = '.' ∨ a = ' ') with rfl | rfl
      · exact hdot
      · exact hsp
    exact infAppendRight _ (infAppendLeft _ h3)
  · exact h

theorem numberedLine_nocreate {qs : List Char} (hlt : '<' ∉ qs) (hgt : '>' ∉ '<' :: qs)
    (ho : ¬ ('<' :: qs) <:+: liOpen) (hc : ¬ ('<' :: qs) <:+: liClose)
    (l : List Char) (h : ¬ ('<' :: qs) <:+: l) : ¬ ('<' :: qs) <:+: numberedLine l := by
  unfold numberedLine
  split
  · refine infNoCreateTagWrap hlt hgt (by decide) (by decide) ho ?_ hc
    intro hq
    apply h
    refine hq.trans ?_
    refine ⟨l.takeWhile (fun c => c.isDigit) ++ (l.dropWhile (fun c => c.isDigit)).take 2,
      [], ?_⟩
    rw [List.append_nil, List.append_assoc, List.take_append_drop,
      List.takeWhile_append_dropWhile]
  · exact h

theorem hrLine_keeps {t : List Char} (hne : t ≠ []) (hdash : '-' ∉ t)
    (l : List Char) (h : t <:+: l) : t <:+: hrLine l := by
  unfold hrLine
  split
  · rename_i hcond
    exfalso
    match t, hne, h with
    | a :: t', _, h =>
      have ha : a ∈ l := h.subset (by simp)
      have : a = '-' := by
        have := List.all_eq_true.mp hcond.2 a ha
        simpa using this
      exact hdash (this ▸ List.mem_cons_self a t')
  · exact h

theorem hrLine_nocreate {qs : List Char}
    (ht : ¬ ('<' :: qs) <:+: hrTag)
    (l : List Char) (h : ¬ ('<' :: qs) <:+: l) : ¬ ('<' :: qs) <:+: hrLine l := by
  unfold hrLine
  split
  · exact ht
  · exact h
/-! ## Bold pass lemmas -/

theorem boldFind_eq :
    ∀ {cs content r2 : List Char}, boldFind cs = some (content, r2) →
      cs = content ++ '*' :: '*' :: r2 ∧ content ≠ [] := by
  intro cs
  induction cs with
  | nil => intro content r2 h; simp [boldFind] at h
  | cons c rest ih =>
    intro content r2 h
    unfold boldFind at h
    by_cases hc : c = '\n'
    · simp [hc] at h
    · simp only [hc, if_false] at h
      by_cases h2 : rest.head? = some '*' ∧ rest.tail.head? = some '*'
      · rw [if_pos h2] at h
        injection h with h
        injection h with hcontent hr2
        match rest, h2 with
        | r0 :: rest', h2 =>
          have hr0 : r0 = '*' := by simpa using h2.1
          match rest', h2 with
          | r1 :: rest'', h2 =>
            have hr1 : r1 = '*' := by simpa using h2.2
            subst hr0 hr1
            rw [← hcontent, ← hr2]
            exact ⟨rfl, by simp⟩
      · rw [if_neg h2] at h
        cases hbf : boldFind rest with
        | none => rw [hbf] at h; simp at h
        | some p =>
          obtain ⟨c1, r1⟩ := p
          rw [hbf] at h
          injection h with h
          injection h with hcontent hr2
          obtain ⟨hrest, hne⟩ := ih hbf
          subst hr2
          refine ⟨?_, by rw [← hcontent]; simp⟩
          rw [← hcontent, hrest]
          rfl

theorem boldScanF_zero (cs : List Char) : boldScanF 0 cs = cs := by
  cases cs <;> rfl

theorem boldScanF_nil (fuel : Nat) : boldScanF fuel [] = [] := by
  cases fuel <;> rfl

theorem boldScanF_succ_star (f : Nat) (rest2 : List Char) :
    boldScanF (f + 1) ('*' :: '*' :: rest2)
      = match boldFind rest2 with
        | some (content, r2) => strongOpen ++ content ++ strongClose ++ boldScanF f r2
        | none => '*' :: boldScanF f ('*' :: rest2) := by
  conv_lhs => unfold boldScanF
  simp

theorem boldScanF_succ_cons (f : Nat) (c : Char) (rest : List Char)
    (h : ¬ (c = '*' ∧ rest.head? = some '*')) :
    boldScanF (f + 1) (c :: rest) = c :: boldScanF f rest := by
  conv_lhs => unfold boldScanF
  simp [h]

theorem strongOpen_cons : strongOpen = '<' :: "strong>".data := by decide

theorem strongClose_cons : strongClose = '<' :: "/strong>".data := by decide

/-- A star-free pattern that is a prefix of the input stays a prefix
of the bold-pass output. -/
theorem boldScanF_pref_keeps :
    ∀ (fuel : Nat) (cs p : List Char), '*' ∉ p → p <+: cs → p <+: boldScanF fuel cs := by
  intro fuel
  induction fuel with
  | zero =>
    intro cs p _ h
    rwa [boldScanF_zero]
  | succ f ih =>
    intro cs p hstar h
    match cs with
    | [] => rwa [boldScanF_nil]
    | c :: rest =>
      match p with
      | [] => exact List.nil_prefix
      | d :: p' =>
        have hdc := (List.cons_prefix_cons.mp h).1
        have hp' := (List.cons_prefix_cons.mp h).2
        have hcstar : ¬ (c = '*' ∧ rest.head? = some '*') := by
          intro he
          exact hstar (by rw [hdc, he.1]; exact List.mem_cons_self _ _)
        rw [boldScanF_succ_cons f c rest hcstar]
        exact List.cons_prefix_cons.mpr
          ⟨hdc, ih rest p' (fun hx => hstar (List.mem_cons_of_mem d hx)) hp'⟩

/-- A star-free non-empty pattern occurring in the input still occurs
in the bold-pass output. -/
theorem boldScanF_keeps {t : List Char} (hne : t ≠ []) (hstar : '*' ∉ t) :
    ∀ fuel cs, t <:+: cs → t <:+: boldScanF fuel cs := by
  intro fuel
  induction fuel with
  | zero =>
    intro cs h
    rwa [boldScanF_zero]
  | succ f ih =>
    intro cs h
    match cs with
    | [] => exact absurd (List.eq_nil_of_infix_nil h) hne
    | c :: rest =>
      by_cases hc : c = '*' ∧ rest.head? = some '*'
      · obtain ⟨rfl, hh⟩ := hc
        match rest, hh with
        | r0 :: rest2, hh =>
          have hr0 : r0 = '*' := by simpa using hh
          subst hr0
          rw [boldScanF_succ_star]
          have hstarhead : ∀ {u : List Char}, ¬ t <+: '*' :: u := by
            intro u hp
            match t, hne, hp with
            | d :: t', _, hp =>
              exact hstar ((List.cons_prefix_cons.mp hp).1 ▸ List.mem_cons_self _ _)
          cases hbf : boldFind rest2 with
          | some p =>
            obtain ⟨content, r2⟩ := p
            obtain ⟨hrest2, _⟩ := boldFind_eq hbf
            subst hrest2
            have h1 : t <:+: content ++ '*' :: '*' :: r2 := by
              rcases List.infix_cons_iff.mp h with hp | h
              · exact absurd hp hstarhead
              rcases List.infix_cons_iff.mp h with hp | h
              · exact absurd hp hstarhead
              exact h
            rcases infSepSplit hne hstar h1 with h2 | h2
            · exact infAppendRight _ (infAppendRight _ (infAppendLeft _ h2))
            · rcases List.infix_cons_iff.mp h2 with hp | h3
              · exact absurd hp hstarhead
              · exact infAppendLeft _ (ih r2 h3)
          | none =>
            have h1 : t <:+: '*' :: rest2 := by
              rcases List.infix_cons_iff.mp h with hp | h
              · exact absurd hp hstarhead
              · exact h
            exact infCons '*' (ih ('*' :: rest2) h1)
      · rw [boldScanF_succ_cons f c rest hc]
        rcases List.infix_cons_iff.mp h with hp | h2
        · match t, hp with
          | d :: t', hp =>
            have hdc := (List.cons_prefix_cons.mp hp).1
            have hp' := (List.cons_prefix_cons.mp hp).2
            exact List.IsPrefix.isInfix (List.cons_prefix_cons.mpr
              ⟨hdc, boldScanF_pref_keeps f rest t'
                (fun hx => hstar (List.mem_cons_of_mem d hx)) hp'⟩)
        · exact infCons c (ih rest h2)

/-- A star-free, `<`-free pattern that is a prefix of the bold-pass
output was already a prefix of the input. -/
theorem boldScanF_pref_reflect :
    ∀ (fuel : Nat) (cs p : List Char), '*' ∉ p → '<' ∉ p →
      p <+: boldScanF fuel cs → p <+: cs := by
  intro fuel
  induction fuel with
  | zero =>
    intro cs p _ _ h
    rwa [boldScanF_zero] at h
  | succ f ih =>
    intro cs p hstar hlt h
    match cs with
    | [] => rwa [boldScanF_nil] at h
    | c :: rest =>
      by_cases hc : c = '*' ∧ rest.head? = some '*'
      · obtain ⟨rfl, hh⟩ := hc
        match rest, hh with
        | r0 :: rest2, hh =>
          have hr0 : r0 = '*' := by simpa using hh
          subst hr0
          rw [boldScanF_succ_star] at h
          match p with
          | [] => exact List.nil_prefix
          | d :: p' =>
            cases hbf : boldFind rest2 with
            | some q =>
              obtain ⟨content, r2⟩ := q
              rw [hbf] at h
              rw [strongOpen_cons] at h
              simp only [List.cons_append] at h
              exact absurd ((List.cons_prefix_cons.mp h).1 ▸ List.mem_cons_self d p') hlt
            | none =>
              rw [hbf] at h
              exact absurd ((List.cons_prefix_cons.mp h).1 ▸ List.mem_cons_self d p') hstar
      · rw [boldScanF_succ_cons f c rest hc] at h
        match p with
        | [] => exact List.nil_prefix
        | d :: p' =>
          have hdc := (List.cons_prefix_cons.mp h).1
          have hp' := (List.cons_prefix_cons.mp h).2
          exact List.cons_prefix_cons.mpr
            ⟨hdc, ih rest p' (fun hx => hstar (List.mem_cons_of_mem d hx))
              (fun hx => hlt (List.mem_cons_of_mem d hx)) hp'⟩

/-- The bold pass creates no new occurrence of a pattern `'<' :: qs`
avoiding `<` (after the head), `>` and `*`. -/
theorem boldScanF_nocreate {qs : List Char} (hlt : '<' ∉ qs) (hgt : '>' ∉ '<' :: qs)
    (hstar : '*' ∉ '<' :: qs)
    (hso : ¬ ('<' :: qs) <:+: strongOpen) (hsc : ¬ ('<' :: qs) <:+: strongClose) :
    ∀ fuel cs, ¬ ('<' :: qs) <:+: cs → ¬ ('<' :: qs) <:+: boldScanF fuel cs := by
  intro fuel
  induction fuel with
  | zero =>
    intro cs h
    rwa [boldScanF_zero]
  | succ f ih =>
    intro cs h
    match cs with
    | [] =>
      rw [boldScanF_nil]
      intro habs
      exact absurd (List.eq_nil_of_infix_nil habs) (by simp)
    | c :: rest =>
      by_cases hc : c = '*' ∧ rest.head? = some '*'
      · obtain ⟨rfl, hh⟩ := hc
        match rest, hh with
        | r0 :: rest2, hh =>
          have hr0 : r0 = '*' := by simpa using hh
          subst hr0
          rw [boldScanF_succ_star]
          cases hbf : boldFind rest2 with
          | some q =>
            obtain ⟨content, r2⟩ := q
            obtain ⟨hrest2, _⟩ := boldFind_eq hbf
            subst hrest2
            have hcontent : ¬ ('<' :: qs) <:+: content := fun hx =>
              h (infCons _ (infCons _ (infAppendRight _ hx)))
            have hr2 : ¬ ('<' :: qs) <:+: r2 := fun hx =>
              h (infCons _ (infCons _ (infAppendLeft _ (infCons _ (infCons _ hx)))))
            have hout : ¬ ('<' :: qs) <:+: boldScanF f r2 := ih r2 hr2
            obtain ⟨sc', hsc'⟩ := List.getLast?_eq_some_iff.mp
              (show strongClose.getLast? = some '>' by decide)
            have hscout : ¬ ('<' :: qs) <:+: strongClose ++ boldScanF f r2 :=
              infNoCreateClose hgt hsc' hsc hout
            have hfull : ¬ ('<' :: qs) <:+:
                strongOpen ++ content ++ strongClose ++ boldScanF f r2 := by
              intro hx
              rw [List.append_assoc] at hx
              exact infNoCreateTagWrap hlt hgt (by decide)
                (by rw [strongClose_cons]; rfl) hso hcontent hscout hx
            intro habs
            exact hfull habs
          | none =>
            intro habs
            rcases List.infix_cons_iff.mp habs with hp | hi
            · exact absurd (List.cons_prefix_cons.mp hp).1 (by decide)
            · exact ih ('*' :: rest2) (fun hx => h (infCons _ hx)) hi
      · rw [boldScanF_succ_cons f c rest hc]
        intro habs
        rcases List.infix_cons_iff.mp habs with hp | hi
        · have hdc := (List.cons_prefix_cons.mp hp).1
          have hp' := (List.cons_prefix_cons.mp hp).2
          have hqs := boldScanF_pref_reflect f rest qs
            (fun hx => hstar (List.mem_cons_of_mem _ hx)) hlt hp'
          exact h ( List.IsPrefix.isInfix (List.cons_prefix_cons.mpr ⟨hdc, hqs⟩))
        · exact ih rest (fun hx => h (infCons _ hx)) hi

/-! ## Italic pass lemmas -/

theorem italFind_eq :
    ∀ {cs content r2 : List Char}, italFind cs = some (content, r2) →
      cs = content ++ '*' :: r2 ∧ content ≠ [] := by
  intro cs
  induction cs with
  | nil => intro content r2 h; simp [italFind] at h
  | cons c rest ih =>
    intro content r2 h
    unfold italFind at h
    by_cases hc : c = '\n'
    · simp [hc] at h
    · simp only [hc, if_false] at h
      by_cases h2 : rest.head? = some '*' ∧ c ≠ '*' ∧ rest.tail.head? ≠ some '*'
      · rw [if_pos h2] at h
        injection h with h
        injection h with hcontent hr2
        match rest, h2 with
        | r0 :: rest', h2 =>
          have hr0 : r0 = '*' := by simpa using h2.1
          subst hr0
          rw [← hcontent, ← hr2]
          exact ⟨rfl, by simp⟩
      · rw [if_neg h2] at h
        cases hbf : italFind rest with
        | none => rw [hbf] at h; simp at h
        | some p =>
          obtain ⟨c1, r1⟩ := p
          rw [hbf] at h
          injection h with h
          injection h with hcontent hr2
          obtain ⟨hrest, hne⟩ := ih hbf
          subst hr2
          refine ⟨?_, by rw [← hcontent]; simp⟩
          rw [← hcontent, hrest]
          rfl

theorem italScanF_zero (prev : Option Char) (cs : List Char) :
    italScanF 0 prev cs = cs := by
  cases cs <;> rfl

theorem italScanF_nil (fuel : Nat) (prev : Option Char) :
    italScanF fuel prev [] = [] := by
  cases fuel <;> rfl

theorem italScanF_succ_cons (f : Nat) (prev : Option Char) (c : Char) (rest : List Char)
    (h : c ≠ '*') :
    italScanF (f + 1) prev (c :: rest) = c :: italScanF f (some c) rest := by
  conv_lhs => unfold italScanF
  simp [h]

theorem italScanF_succ_open (f : Nat) (prev : Option Char) (rest : List Char)
    (h : prev ≠ some '*' ∧ rest.head? ≠ some '*') :
    italScanF (f + 1) prev ('*' :: rest)
      = match italFind rest with
        | some (content, r2) => emOpen ++ content ++ emClose ++ italScanF f (some '*') r2
        | none => '*' :: italScanF f (some '*') rest := by
  conv_lhs => unfold italScanF
  simp [h]

theorem italScanF_succ_skip (f : Nat) (prev : Option Char) (rest : List Char)
    (h : ¬ (prev ≠ some '*' ∧ rest.head? ≠ some '*')) :
    italScanF (f + 1) prev ('*' :: rest) = '*' :: italScanF f (some '*') rest := by
  conv_lhs => unfold italScanF
  simp only [if_pos rfl, if_neg h]
  split <;> rfl

theorem emOpen_cons : emOpen = '<' :: "em>".data := by decide

theorem emClose_cons : emClose = '<' :: "/em>".data := by decide

theorem italScanF_pref_keeps :
    ∀ (fuel : Nat) (prev : Option Char) (cs p : List Char), '*' ∉ p →
      p <+: cs → p <+: italScanF fuel prev cs := by
  intro fuel
  induction fuel with
  | zero =>
    intro prev cs p _ h
    rwa [italScanF_zero]
  | succ f ih =>
    intro prev cs p hstar h
    match cs with
    | [] => rwa [italScanF_nil]
    | c :: rest =>
      match p with
      | [] => exact List.nil_prefix
      | d :: p' =>
        have hdc := (List.cons_prefix_cons.mp h).1
        have hp' := (List.cons_prefix_cons.mp h).2
        have hcne : c ≠ '*' := by
          intro he
          exact hstar (by rw [hdc, he]; exact List.mem_cons_self _ _)
        rw [italScanF_succ_cons f prev c rest hcne]
        exact List.cons_prefix_cons.mpr
          ⟨hdc, ih (some c) rest p' (fun hx => hstar (List.mem_cons_of_mem d hx)) hp'⟩

theorem italScanF_keeps {t : List Char} (hne : t ≠ []) (hstar : '*' ∉ t) :
    ∀ (fuel : Nat) (prev : Option Char) (cs : List Char),
      t <:+: cs → t <:+: italScanF fuel prev cs := by
  intro fuel
  induction fuel with
  | zero =>
    intro prev cs h
    rwa [italScanF_zero]
  | succ f ih =>
    intro prev cs h
    match cs with
    | [] => exact absurd (List.eq_nil_of_infix_nil h) hne
    | c :: rest =>
      have hstarhead : ∀ {u : List Char}, ¬ t <+: '*' :: u := by
        intro u hp
        match t, hne, hp with
        | d :: t', _, hp =>
          exact hstar ((List.cons_prefix_cons.mp hp).1 ▸ List.mem_cons_self _ _)
      by_cases hc : c = '*'
      · subst hc
        have h1 : t <:+: rest := by
          rcases List.infix_cons_iff.mp h with hp | h
          · exact absurd hp hstarhead
          · exact h
        by_cases hcond : prev ≠ some '*' ∧ rest.head? ≠ some '*'
        · rw [italScanF_succ_open f prev rest hcond]
          cases hbf : italFind rest with
          | some q =>
            obtain ⟨content, r2⟩ := q
            obtain ⟨hrest, _⟩ := italFind_eq hbf
            subst hrest
            rcases infSepSplit hne hstar h1 with h2 | h2
            · exact infAppendRight _ (infAppendRight _ (infAppendLeft _ h2))
            · exact infAppendLeft _ (ih (some '*') r2 h2)
          | none => exact infCons '*' (ih (some '*') rest h1)
        · rw [italScanF_succ_skip f prev rest hcond]
          exact infCons '*' (ih (some '*') rest h1)
      · rw [italScanF_succ_cons f prev c rest hc]
        rcases List.infix_cons_iff.mp h with hp | h2
        · match t, hp with
          | d :: t', hp =>
            have hdc := (List.cons_prefix_cons.mp hp).1
            have hp' := (List.cons_prefix_cons.mp hp).2
            exact List.IsPrefix.isInfix (List.cons_prefix_cons.mpr
              ⟨hdc, italScanF_pref_keeps f (some c) rest t'
                (fun hx => hstar (List.mem_cons_of_mem d hx)) hp'⟩)
        · exact infCons c (ih (some c) rest h2)

theorem italScanF_pref_reflect :
    ∀ (fuel : Nat) (prev : Option Char) (cs p : List Char), '*' ∉ p → '<' ∉ p →
      p <+: italScanF fuel prev cs → p <+: cs := by
  intro fuel
  induction fuel with
  | zero =>
    intro prev cs p _ _ h
    rwa [italScanF_zero] at h
  | succ f ih =>
    intro prev cs p hstar hlt h
    match cs with
    | [] => rwa [italScanF_nil] at h
    | c :: rest =>
      match p with
      | [] => exact List.nil_prefix
      | d :: p' =>
        by_cases hc : c = '*'
        · subst hc
          by_cases hcond : prev ≠ some '*' ∧ rest.head? ≠ some '*'
          · rw [italScanF_succ_open f prev rest hcond] at h
            cases hbf : italFind rest with
            | some q =>
              obtain ⟨content, r2⟩ := q
              rw [hbf] at h
              rw [emOpen_cons] at h
              simp only [List.cons_append] at h
              exact absurd ((List.cons_prefix_cons.mp h).1 ▸ List.mem_cons_self d p') hlt
            | none =>
              rw [hbf] at h
              exact absurd ((List.cons_prefix_cons.mp h).1 ▸ List.mem_cons_self d p') hstar
          · rw [italScanF_succ_skip f prev rest hcond] at h
            exact absurd ((List.cons_prefix_cons.mp h).1 ▸ List.mem_cons_self d p') hstar
        · rw [italScanF_succ_cons f prev c rest hc] at h
          have hdc := (List.cons_prefix_cons.mp h).1
          have hp' := (List.cons_prefix_cons.mp h).2
          exact List.cons_prefix_cons.mpr
            ⟨hdc, ih (some c) rest p' (fun hx => hstar (List.mem_cons_of_mem d hx))
              (fun hx => hlt (List.mem_cons_of_mem d hx)) hp'⟩

theorem italScanF_nocreate {qs : List Char} (hlt : '<' ∉ qs) (hgt : '>' ∉ '<' :: qs)
    (hstar : '*' ∉ '<' :: qs)
    (heo : ¬ ('<' :: qs) <:+: emOpen) (hec : ¬ ('<' :: qs) <:+: emClose) :
    ∀ (fuel : Nat) (prev : Option Char) (cs : List Char),
      ¬ ('<' :: qs) <:+: cs → ¬ ('<' :: qs) <:+: italScanF fuel prev cs := by
  intro fuel
  induction fuel with
  | zero =>
    intro prev cs h
    rwa [italScanF_zero]
  | succ f ih =>
    intro prev cs h
    match cs with
    | [] =>
      rw [italScanF_nil]
      intro habs
      exact absurd (List.eq_nil_of_infix_nil habs) (by simp)
    | c :: rest =>
      have hrest : ¬ ('<' :: qs) <:+: rest := fun hx => h (infCons _ hx)
      by_cases hc : c = '*'
      · subst hc
        by_cases hcond : prev ≠ some '*' ∧ rest.head? ≠ some '*'
        · rw [italScanF_succ_open f prev rest hcond]
          cases hbf : italFind rest with
          | some q =>
            obtain ⟨content, r2⟩ := q
            obtain ⟨hr, _⟩ := italFind_eq hbf
            subst hr
            have hcontent : ¬ ('<' :: qs) <:+: content := fun hx =>
              hrest (infAppendRight _ hx)
            have hr2 : ¬ ('<' :: qs) <:+: r2 := fun hx =>
              hrest (infAppendLeft _ (infCons _ hx))
            have hout := ih (some '*') r2 hr2
            obtain ⟨ec', hec'⟩ := List.getLast?_eq_some_iff.mp
              (show emClose.getLast? = some '>' by decide)
            have hecout : ¬ ('<' :: qs) <:+: emClose ++ italScanF f (some '*') r2 :=
              infNoCreateClose hgt hec' hec hout
            have hfull : ¬ ('<' :: qs) <:+:
                emOpen ++ content ++ emClose ++ italScanF f (some '*') r2 := by
              intro hx
              rw [List.append_assoc] at hx
              exact infNoCreateTagWrap hlt hgt (by decide)
                (by rw [emClose_cons]; rfl) heo hcontent hecout hx
            intro habs
            exact hfull habs
          | none =>
            intro habs
            rcases List.infix_cons_iff.mp habs with hp | hi
            · exact absurd (List.cons_prefix_cons.mp hp).1 (by decide)
            · exact ih (some '*') rest hrest hi
        · rw [italScanF_succ_skip f prev rest hcond]
          intro habs
          rcases List.infix_cons_iff.mp habs with hp | hi
          · exact absurd (List.cons_prefix_cons.mp hp).1 (by decide)
          · exact ih (some '*') rest hrest hi
      · rw [italScanF_succ_cons f prev c rest hc]
        intro habs
        rcases List.infix_cons_iff.mp habs with hp | hi
        · have hdc := (List.cons_prefix_cons.mp hp).1
          have hp' := (List.cons_prefix_cons.mp hp).2
          have hqs := italScanF_pref_reflect f (some c) rest qs
            (fun hx => hstar (List.mem_cons_of_mem _ hx)) hlt hp'
          exact h ( List.IsPrefix.isInfix (List.cons_prefix_cons.mpr ⟨hdc, hqs⟩))
        · exact ih (some c) rest hrest hi

/-! ## Paragraph / line-break pass lemmas -/

theorem paraScan_nl2 (r : List Char) :
    paraScan ('\n' :: '\n' :: r) = pBreak ++ paraScan r := by
  simp [paraScan]

theorem paraScan_cons2 {c c2 : Char} (r : List Char) (h : ¬ (c = '\n' ∧ c2 = '\n')) :
    paraScan (c :: c2 :: r) = c :: paraScan (c2 :: r) := by
  simp [paraScan, h]

theorem pBreak_cons : pBreak = '<' :: "/p><p class=\"nuru-p\">".data := by decide

theorem brTag_cons : brTag = '<' :: "br>".data := by decide

theorem paraScan_pref_keeps :
    ∀ (cs p : List Char), '\n' ∉ p → p <+: cs → p <+: paraScan cs := by
  intro cs
  induction cs using paraScan.induct with
  | case1 =>
    intro p _ h
    simpa [paraScan] using h
  | case2 c =>
    intro p _ h
    simpa [paraScan] using h
  | case3 c c2 r h ih =>
    intro p hnl hp
    obtain ⟨rfl, rfl⟩ := h
    match p with
    | [] => exact List.nil_prefix
    | d :: p' =>
      exact absurd ((List.cons_prefix_cons.mp hp).1 ▸ List.mem_cons_self d p') hnl
  | case4 c c2 r h ih =>
    intro p hnl hp
    rw [paraScan_cons2 r h]
    match p with
    | [] => exact List.nil_prefix
    | d :: p' =>
      have hdc := (List.cons_prefix_cons.mp hp).1
      have hp' := (List.cons_prefix_cons.mp hp).2
      exact List.cons_prefix_cons.mpr
        ⟨hdc, ih p' (fun hx => hnl (List.mem_cons_of_mem d hx)) hp'⟩

theorem paraScan_keeps {t : List Char} (hne : t ≠ []) (hnl : '\n' ∉ t) :
    ∀ cs, t <:+: cs → t <:+: paraScan cs := by
  intro cs
  induction cs using paraScan.induct with
  | case1 =>
    intro h
    exact absurd (List.eq_nil_of_infix_nil h) hne
  | case2 c =>
    intro h
    simpa [paraScan] using h
  | case3 c c2 r h ih =>
    intro hin
    obtain ⟨rfl, rfl⟩ := h
    rw [paraScan_nl2]
    have hnlhead : ∀ {u : List Char}, ¬ t <+: '\n' :: u := by
      intro u hp
      match t, hne, hp with
      | d :: t', _, hp =>
        exact hnl ((List.cons_prefix_cons.mp hp).1 ▸ List.mem_cons_self _ _)
    have h1 : t <:+: r := by
      rcases List.infix_cons_iff.mp hin with hp | hin
      · exact absurd hp hnlhead
      rcases List.infix_cons_iff.mp hin with hp | hin
      · exact absurd hp hnlhead
      exact hin
    exact infAppendLeft _ (ih h1)
  | case4 c c2 r h ih =>
    intro hin
    rw [paraScan_cons2 r h]
    rcases List.infix_cons_iff.mp hin with hp | h2
    · match t, hp with
      | d :: t', hp =>
        have hdc := (List.cons_prefix_cons.mp hp).1
        have hp' := (List.cons_prefix_cons.mp hp).2
        exact List.IsPrefix.isInfix (List.cons_prefix_cons.mpr
          ⟨hdc, paraScan_pref_keeps (c2 :: r) t'
            (fun hx => hnl (List.mem_cons_of_mem d hx)) hp'⟩)
    · exact infCons c (ih h2)

theorem paraScan_pref_reflect :
    ∀ (cs p : List Char), '\n' ∉ p → '<' ∉ p →
      p <+: paraScan cs → p <+: cs := by
  intro cs
  induction cs using paraScan.induct with
  | case1 =>
    intro p _ _ h
    simpa [paraScan] using h
  | case2 c =>
    intro p _ _ h
    simpa [paraScan] using h
  | case3 c c2 r h ih =>
    intro p hnl hlt hp
    obtain ⟨rfl, rfl⟩ := h
    rw [paraScan_nl2, pBreak_cons] at hp
    match p with
    | [] => exact List.nil_prefix
    | d :: p' =>
      rw [List.cons_append] at hp
      exact absurd ((List.cons_prefix_cons.mp hp).1 ▸ List.mem_cons_self d p') hlt
  | case4 c c2 r h ih =>
    intro p hnl hlt hp
    rw [paraScan_cons2 r h] at hp
    match p with
    | [] => exact List.nil_prefix
    | d :: p' =>
      have hdc := (List.cons_prefix_cons.mp hp).1
      have hp' := (List.cons_prefix_cons.mp hp).2
      exact List.cons_prefix_cons.mpr
        ⟨hdc, ih p' (fun hx => hnl (List.mem_cons_of_mem d hx))
          (fun hx => hlt (List.mem_cons_of_mem d hx)) hp'⟩

theorem paraScan_nocreate {qs : List Char} (hlt : '<' ∉ qs) (hgt : '>' ∉ '<' :: qs)
    (hnl : '\n' ∉ '<' :: qs) (hpb : ¬ ('<' :: qs) <:+: pBreak) :
    ∀ cs, ¬ ('<' :: qs) <:+: cs → ¬ ('<' :: qs) <:+: paraScan cs := by
  intro cs
  induction cs using paraScan.induct with
  | case1 =>
    intro h habs
    exact absurd (List.eq_nil_of_infix_nil habs) (by simp)
  | case2 c =>
    intro h habs
    exact h (by simpa [paraScan] using habs)
  | case3 c c2 r h ih =>
    intro hcs habs
    obtain ⟨rfl, rfl⟩ := h
    rw [paraScan_nl2] at habs
    have hr : ¬ ('<' :: qs) <:+: r := fun hx => hcs (infCons _ (infCons _ hx))
    obtain ⟨pb', hpb'⟩ := List.getLast?_eq_some_iff.mp
      (show pBreak.getLast? = some '>' by decide)
    exact infNoCreateClose hgt hpb' hpb (ih hr) habs
  | case4 c c2 r h ih =>
    intro hcs habs
    rw [paraScan_cons2 r h] at habs
    have hr : ¬ ('<' :: qs) <:+: c2 :: r := fun hx => hcs (infCons _ hx)
    rcases List.infix_cons_iff.mp habs with hp | hi
    · have hdc := (List.cons_prefix_cons.mp hp).1
      have hp' := (List.cons_prefix_cons.mp hp).2
      have hqs := paraScan_pref_reflect (c2 :: r) qs
        (fun hx => hnl (List.mem_cons_of_mem _ hx)) hlt hp'
      exact hcs ( List.IsPrefix.isInfix (List.cons_prefix_cons.mpr ⟨hdc, hqs⟩))
    · exact ih hr hi

theorem brScan_pref_keeps :
    ∀ (cs p : List Char), '\n' ∉ p → p <+: cs → p <+: brScan cs := by
  intro cs
  induction cs with
  | nil =>
    intro p _ h
    simpa [brScan] using h
  | cons c r ih =>
    intro p hnl hp
    match p with
    | [] => exact List.nil_prefix
    | d :: p' =>
      have hdc := (List.cons_prefix_cons.mp hp).1
      have hp' := (List.cons_prefix_cons.mp hp).2
      have hcne : c ≠ '\n' := by
        intro he
        exact hnl (by rw [hdc, he]; exact List.mem_cons_self _ _)
      rw [show brScan (c :: r) = c :: brScan r from by simp [brScan, hcne]]
      exact List.cons_prefix_cons.mpr
        ⟨hdc, ih p' (fun hx => hnl (List.mem_cons_of_mem d hx)) hp'⟩

theorem brScan_keeps {t : List Char} (hne : t ≠ []) (hnl : '\n' ∉ t) :
    ∀ cs, t <:+: cs → t <:+: brScan cs := by
  intro cs
  induction cs with
  | nil =>
    intro h
    exact absurd (List.eq_nil_of_infix_nil h) hne
  | cons c r ih =>
    intro h
    by_cases hc : c = '\n'
    · subst hc
      rw [show brScan ('\n' :: r) = brTag ++ brScan r from by simp [brScan]]
      have h1 : t <:+: r := by
        rcases List.infix_cons_iff.mp h with hp | h
        · match t, hne, hp with
          | d :: t', _, hp =>
            exact absurd ((List.cons_prefix_cons.mp hp).1 ▸ List.mem_cons_self _ _) hnl
        · exact h
      exact infAppendLeft _ (ih h1)
    · rw [show brScan (c :: r) = c :: brScan r from by simp [brScan, hc]]
      rcases List.infix_cons_iff.mp h with hp | h2
      · match t, hp with
        | d :: t', hp =>
          have hdc := (List.cons_prefix_cons.mp hp).1
          have hp' := (List.cons_prefix_cons.mp hp).2
          exact List.IsPrefix.isInfix (List.cons_prefix_cons.mpr
            ⟨hdc, brScan_pref_keeps r t' (fun hx => hnl (List.mem_cons_of_mem d hx)) hp'⟩)
      · exact infCons c (ih h2)

theorem brScan_pref_reflect :
    ∀ (cs p : List Char), '\n' ∉ p → '<' ∉ p → p <+: brScan cs → p <+: cs := by
  intro cs
  induction cs with
  | nil =>
    intro p _ _ h
    simpa [brScan] using h
  | cons c r ih =>
    intro p hnl hlt hp
    match p with
    | [] => exact List.nil_prefix
    | d :: p' =>
      by_cases hc : c = '\n'
      · subst hc
        rw [show brScan ('\n' :: r) = brTag ++ brScan r from by simp [brScan],
          brTag_cons, List.cons_append] at hp
        exact absurd ((List.cons_prefix_cons.mp hp).1 ▸ List.mem_cons_self d p') hlt
      · rw [show brScan (c :: r) = c :: brScan r from by simp [brScan, hc]] at hp
        have hdc := (List.cons_prefix_cons.mp hp).1
        have hp' := (List.cons_prefix_cons.mp hp).2
        exact List.cons_prefix_cons.mpr
          ⟨hdc, ih p' (fun hx => hnl (List.mem_cons_of_mem d hx))
            (fun hx => hlt (List.mem_cons_of_mem d hx)) hp'⟩

theorem brScan_nocreate {qs : List Char} (hlt : '<' ∉ qs) (hgt : '>' ∉ '<' :: qs)
    (hnl : '\n' ∉ '<' :: qs) (hbt : ¬ ('<' :: qs) <:+: brTag) :
    ∀ cs, ¬ ('<' :: qs) <:+: cs → ¬ ('<' :: qs) <:+: brScan cs := by
  intro cs
  induction cs with
  | nil =>
    intro h habs
    exact absurd (List.eq_nil_of_infix_nil habs) (by simp)
  | cons c r ih =>
    intro hcs habs
    have hr : ¬ ('<' :: qs) <:+: r := fun hx => hcs (infCons _ hx)
    by_cases hc : c = '\n'
    · subst hc
      rw [show brScan ('\n' :: r) = brTag ++ brScan r from by simp [brScan]] at habs
      obtain ⟨bt', hbt'⟩ := List.getLast?_eq_some_iff.mp
        (show brTag.getLast? = some '>' by decide)
      exact infNoCreateClose hgt hbt' hbt (ih hr) habs
    · rw [show brScan (c :: r) = c :: brScan r from by simp [brScan, hc]] at habs
      rcases List.infix_cons_iff.mp habs with hp | hi
      · have hdc := (List.cons_prefix_cons.mp hp).1
        have hp' := (List.cons_prefix_cons.mp hp).2
        have hqs := brScan_pref_reflect r qs
          (fun hx => hnl (List.mem_cons_of_mem _ hx)) hlt hp'
        exact hcs ( List.IsPrefix.isInfix (List.cons_prefix_cons.mpr ⟨hdc, hqs⟩))
      · exact ih hr hi

/-! ## Unordered-list grouping pass lemmas -/

theorem ulOpen_last : ∃ o, ulOpen = o ++ ['>'] :=
  List.getLast?_eq_some_iff.mp (show ulOpen.getLast? = some '>' by decide)

theorem ulClose_last : ∃ o, ulClose = o ++ ['>'] :=
  List.getLast?_eq_some_iff.mp (show ulClose.getLast? = some '>' by decide)

theorem ulClose_cons : ulClose = '<' :: "/ul>".data := by decide

/-- Every input line appears (with an optional prefix and suffix)
inside some output line of the grouping pass; when the scanner carries
a pending run line, that line appears as well. -/
theorem ulWrapGo_cover :
    ∀ (ls : List (List Char)) (o : Option (List Char)),
      (∀ cur, o = some cur →
        ∃ l', l' ∈ ulWrapGo o ls ∧ ∃ pre suf, l' = pre ++ cur ++ suf)
      ∧ (∀ l ∈ ls, ∃ l', l' ∈ ulWrapGo o ls ∧ ∃ pre suf, l' = pre ++ l ++ suf) := by
  intro ls
  induction ls with
  | nil =>
    intro o
    constructor
    · intro cur ho
      subst ho
      exact ⟨cur ++ ulClose, by simp [ulWrapGo], [], ulClose, by simp⟩
    · intro l hl
      simp at hl
  | cons l0 ls ih =>
    intro o
    match o with
    | none =>
      by_cases hli : isLiLine l0 = true
      · have heq : ulWrapGo none (l0 :: ls) = ulWrapGo (some (ulOpen ++ l0)) ls := by
          simp [ulWrapGo, hli]
        constructor
        · intro cur ho
          simp at ho
        · intro l hl
          rcases List.mem_cons.mp hl with rfl | hmem
          · obtain ⟨l', hl', pre, suf, hform⟩ := (ih (some (ulOpen ++ l))).1 _ rfl
            exact ⟨l', heq ▸ hl', pre ++ ulOpen, suf, by rw [hform]; simp⟩
          · obtain ⟨l', hl', pre, suf, hform⟩ := (ih (some (ulOpen ++ l0))).2 l hmem
            exact ⟨l', heq ▸ hl', pre, suf, hform⟩
      · have heq : ulWrapGo none (l0 :: ls) = l0 :: ulWrapGo none ls := by
          simp [ulWrapGo, hli]
        constructor
        · intro cur ho
          simp at ho
        · intro l hl
          rcases List.mem_cons.mp hl with rfl | hmem
          · exact ⟨l, heq ▸ List.mem_cons_self _ _, [], [], by simp⟩
          · obtain ⟨l', hl', pre, suf, hform⟩ := (ih none).2 l hmem
            exact ⟨l', heq ▸ List.mem_cons_of_mem _ hl', pre, suf, hform⟩
    | some cur =>
      by_cases hli : isLiLine l0 = true
      · have heq : ulWrapGo (some cur) (l0 :: ls) = cur :: ulWrapGo (some l0) ls := by
          simp [ulWrapGo, hli]
        constructor
        · intro cur' ho
          have hc : cur' = cur := by injection ho with ho; exact ho.symm
          subst hc
          exact ⟨cur', heq ▸ List.mem_cons_self _ _, [], [], by simp⟩
        · intro l hl
          rcases List.mem_cons.mp hl with rfl | hmem
          · obtain ⟨l', hl', pre, suf, hform⟩ := (ih (some l)).1 _ rfl
            exact ⟨l', heq ▸ List.mem_cons_of_mem _ hl', pre, suf, hform⟩
          · obtain ⟨l', hl', pre, suf, hform⟩ := (ih (some l0)).2 l hmem
            exact ⟨l', heq ▸ List.mem_cons_of_mem _ hl', pre, suf, hform⟩
      · have heq : ulWrapGo (some cur) (l0 :: ls)
            = cur :: (ulClose ++ l0) :: ulWrapGo none ls := by
          simp [ulWrapGo, hli]
        constructor
        · intro cur' ho
          have hc : cur' = cur := by injection ho with ho; exact ho.symm
          subst hc
          exact ⟨cur', heq ▸ List.mem_cons_self _ _, [], [], by simp⟩
        · intro l hl
          rcases List.mem_cons.mp hl with rfl | hmem
          · exact ⟨ulClose ++ l, heq ▸ List.mem_cons_of_mem _ (List.mem_cons_self _ _),
              ulClose, [], by simp⟩
          · obtain ⟨l', hl', pre, suf, hform⟩ := (ih none).2 l hmem
            exact ⟨l', heq ▸ List.mem_cons_of_mem _ (List.mem_cons_of_mem _ hl'),
              pre, suf, hform⟩

/-- Every output line of the grouping pass is an input line with an
optional `<ul ...>` or `</ul>` prefix and an optional `</ul>`
suffix. -/
theorem ulWrapGo_forms :
    ∀ (ls : List (List Char)) (o : Option (List Char)) (src : List (List Char)),
      (∀ cur, o = some cur → ∃ l0, l0 ∈ src ∧ (cur = l0 ∨ cur = ulOpen ++ l0)) →
      (∀ l ∈ ls, l ∈ src) →
      ∀ l' ∈ ulWrapGo o ls, ∃ l0, l0 ∈ src ∧ ∃ pre suf,
        l' = pre ++ l0 ++ suf
        ∧ (pre = [] ∨ pre = ulOpen ∨ pre = ulClose) ∧ (suf = [] ∨ suf = ulClose) := by
  intro ls
  induction ls with
  | nil =>
    intro o src hcur hls l' hl'
    match o with
    | none => simp [ulWrapGo] at hl'
    | some cur =>
      obtain ⟨l0, hl0, hform⟩ := hcur cur rfl
      have hlc : l' = cur ++ ulClose := by simpa [ulWrapGo] using hl'
      rcases hform with h1 | h1
      · exact ⟨l0, hl0, [], ulClose, by simp [hlc, h1], by simp, by simp⟩
      · exact ⟨l0, hl0, ulOpen, ulClose, by simp [hlc, h1], by simp, by simp⟩
  | cons l0 ls ih =>
    intro o src hcur hls l' hl'
    have hl0src : l0 ∈ src := hls l0 (List.mem_cons_self _ _)
    have hlssrc : ∀ l ∈ ls, l ∈ src := fun l hl => hls l (List.mem_cons_of_mem _ hl)
    match o with
    | none =>
      by_cases hli : isLiLine l0 = true
      · rw [show ulWrapGo none (l0 :: ls) = ulWrapGo (some (ulOpen ++ l0)) ls from by
          simp [ulWrapGo, hli]] at hl'
        exact ih (some (ulOpen ++ l0)) src
          (fun cur ho => ⟨l0, hl0src, Or.inr (by injection ho with ho; rw [← ho])⟩)
          hlssrc l' hl'
      · rw [show ulWrapGo none (l0 :: ls) = l0 :: ulWrapGo none ls from by
          simp [ulWrapGo, hli]] at hl'
        rcases List.mem_cons.mp hl' with rfl | hmem
        · exact ⟨l', hl0src, [], [], by simp, by simp, by simp⟩
        · exact ih none src (by simp) hlssrc l' hmem
    | some cur =>
      obtain ⟨lc, hlc, hformc⟩ := hcur cur rfl
      by_cases hli : isLiLine l0 = true
      · rw [show ulWrapGo (some cur) (l0 :: ls) = cur :: ulWrapGo (some l0) ls from by
          simp [ulWrapGo, hli]] at hl'
        rcases List.mem_cons.mp hl' with heql | hmem
        · rcases hformc with h1 | h1
          · exact ⟨lc, hlc, [], [], by simp [heql, h1], by simp, by simp⟩
          · exact ⟨lc, hlc, ulOpen, [], by simp [heql, h1], by simp, by simp⟩
        · exact ih (some l0) src (fun cur' ho => ⟨l0, hl0src,
            Or.inl (by injection ho with ho; rw [← ho])⟩) hlssrc l' hmem
      · rw [show ulWrapGo (some cur) (l0 :: ls)
            = cur :: (ulClose ++ l0) :: ulWrapGo none ls from by
          simp [ulWrapGo, hli]] at hl'
        rcases List.mem_cons.mp hl' with heql | hmem
        · rcases hformc with h1 | h1
          · exact ⟨lc, hlc, [], [], by simp [heql, h1], by simp, by simp⟩
          · exact ⟨lc, hlc, ulOpen, [], by simp [heql, h1], by simp, by simp⟩
        · rcases List.mem_cons.mp hmem with heql | hmem2
          · exact ⟨l0, hl0src, ulClose, [], by simp [heql], by simp, by simp⟩
          · exact ih none src (by simp) hlssrc l' hmem2

theorem ulWrapPass_keeps {t : List Char} (hne : t ≠ []) (hnl : '\n' ∉ t)
    {cs : List Char} (h : t <:+: cs) : t <:+: ulWrapPass cs := by
  obtain ⟨l, hl, hin⟩ := infLineOfSplit hne hnl h
  obtain ⟨l', hl', pre, suf, hform⟩ := (ulWrapGo_cover (splitNl cs) none).2 l hl
  have hl'in : t <:+: l' := by
    rw [hform]
    exact infAppendRight suf (infAppendLeft pre hin)
  exact hl'in.trans (infJoinOfMem hl')

theorem ulWrapPass_nocreate {qs : List Char} (hlt : '<' ∉ qs) (hgt : '>' ∉ '<' :: qs)
    (hnl : '\n' ∉ '<' :: qs)
    (hulo : ¬ ('<' :: qs) <:+: ulOpen) (hulc : ¬ ('<' :: qs) <:+: ulClose)
    {cs : List Char} (h : ¬ ('<' :: qs) <:+: cs) : ¬ ('<' :: qs) <:+: ulWrapPass cs := by
  intro habs
  obtain ⟨l', hl', hin⟩ := memJoinOfInf (by simp) hnl _ habs
  obtain ⟨l0, hl0, pre, suf, hform, hpre, hsuf⟩ :=
    ulWrapGo_forms (splitNl cs) none (splitNl cs) (by simp) (fun l hl => hl) l' hl'
  have hql0 : ¬ ('<' :: qs) <:+: l0 := fun hx => h (hx.trans (lineInfOfMem hl0))
  have hmidsuf : ¬ ('<' :: qs) <:+: l0 ++ suf := by
    rcases hsuf with rfl | rfl
    · simpa using hql0
    · exact infNoCreateOpen hlt ulClose_cons hql0 hulc
  have hfull : ¬ ('<' :: qs) <:+: pre ++ (l0 ++ suf) := by
    rcases hpre with rfl | rfl | rfl
    · simpa using hmidsuf
    · obtain ⟨o, ho⟩ := ulOpen_last
      exact infNoCreateClose hgt ho hulo hmidsuf
    · obtain ⟨o, ho⟩ := ulClose_last
      exact infNoCreateClose hgt ho hulc hmidsuf
  apply hfull
  rw [← List.append_assoc, ← hform]
  exact hin

/-! ## Whole-pipeline lemmas -/

theorem pOpen_last : ∃ o, pOpen = o ++ ['>'] :=
  List.getLast?_eq_some_iff.mp (show pOpen.getLast? = some '>' by decide)

theorem pClose_cons : pClose = '<' :: "/p>".data := by decide

/-- If the input contains `<script>`, the pipeline before the final
wrap contains `&lt;script&gt;`. -/
theorem mdCore_keeps_script (cs : List Char) (h : "<script>".data <:+: cs) :
    "&lt;script&gt;".data <:+: mdCore cs := by
  show "&lt;script&gt;".data <:+:
    brScan (paraScan (mapLines hrLine (mapLines numberedLine (ulWrapPass
      (mapLines bulletLine (italPass (boldPass (mapLines h3Line (mapLines h4Line
        (escapeHtml cs))))))))))
  have hne : ("&lt;script&gt;".data : List Char) ≠ [] := by decide
  have hnl : '\n' ∉ ("&lt;script&gt;".data : List Char) := by decide
  have hstar : '*' ∉ ("&lt;script&gt;".data : List Char) := by decide
  have hhash : '#' ∉ ("&lt;script&gt;".data : List Char) := by decide
  have hsp : ' ' ∉ ("&lt;script&gt;".data : List Char) := by decide
  have hdash : '-' ∉ ("&lt;script&gt;".data : List Char) := by decide
  have hbul : '•' ∉ ("&lt;script&gt;".data : List Char) := by decide
  have hdot : '.' ∉ ("&lt;script&gt;".data : List Char) := by decide
  have hdig2 : ∀ c ∈ ("&lt;script&gt;".data : List Char), c.isDigit = false := by decide
  have hdig : ∀ c, c.isDigit = true → c ∉ ("&lt;script&gt;".data : List Char) := by
    intro c hc hm
    rw [hdig2 c hm] at hc
    exact Bool.false_ne_true hc
  have h1 := escapeHtml_keeps_script h
  have h2 := mapLinesKeeps hne hnl (h4Line_keeps hne hhash hsp) h1
  have h3 := mapLinesKeeps hne hnl (h3Line_keeps hne hhash hsp) h2
  have h4 : "&lt;script&gt;".data <:+: boldPass (mapLines h3Line (mapLines h4Line
      (escapeHtml cs))) := boldScanF_keeps hne hstar _ _ h3
  have h5 : "&lt;script&gt;".data <:+: italPass (boldPass (mapLines h3Line
      (mapLines h4Line (escapeHtml cs)))) := italScanF_keeps hne hstar _ none _ h4
  have h6 := mapLinesKeeps hne hnl (bulletLine_keeps hne hdash hbul hsp) h5
  have h7 := ulWrapPass_keeps hne hnl h6
  have h8 := mapLinesKeeps hne hnl (numberedLine_keeps hne hdig hdot hsp) h7
  have h9 := mapLinesKeeps hne hnl (hrLine_keeps hne hdash) h8
  have h10 := paraScan_keeps hne hnl _ h9
  exact brScan_keeps hne hnl _ h10

/-- The pipeline before the final wrap never creates an occurrence of
a pattern `'<' :: qs` avoiding `<` (after the head), `>`, `*` and
newlines, provided the pattern occurs in none of the inserted HTML
fragments: after the entity escape the text contains no `<` at all,
and no later pass can assemble one. -/
theorem mdCore_nocreate {qs : List Char} (hlt : '<' ∉ qs) (hgt : '>' ∉ '<' :: qs)
    (hnl : '\n' ∉ '<' :: qs) (hstar : '*' ∉ '<' :: qs)
    (htags : ∀ tag ∈ mdTags, ¬ ('<' :: qs) <:+: tag) :
    ∀ cs, ¬ ('<' :: qs) <:+: mdCore cs := by
  intro cs
  show ¬ ('<' :: qs) <:+:
    brScan (paraScan (mapLines hrLine (mapLines numberedLine (ulWrapPass
      (mapLines bulletLine (italPass (boldPass (mapLines h3Line (mapLines h4Line
        (escapeHtml cs))))))))))
  have hne : ('<' :: qs) ≠ [] := by simp
  have hq0 : ¬ ('<' :: qs) <:+: escapeHtml cs := escapeHtml_no_open cs
  have hq1 := mapLinesNoCreate hne hnl
    (h4Line_nocreate hlt hgt (htags h4Open (by simp [mdTags]))
      (htags h4Close (by simp [mdTags]))) hq0
  have hq2 := mapLinesNoCreate hne hnl
    (h3Line_nocreate hlt hgt (htags h3Open (by simp [mdTags]))
      (htags h3Close (by simp [mdTags]))) hq1
  have hq3 : ¬ ('<' :: qs) <:+: boldPass (mapLines h3Line (mapLines h4Line
      (escapeHtml cs))) :=
    boldScanF_nocreate hlt hgt hstar (htags strongOpen (by simp [mdTags]))
      (htags strongClose (by simp [mdTags])) _ _ hq2
  have hq4 : ¬ ('<' :: qs) <:+: italPass (boldPass (mapLines h3Line (mapLines h4Line
      (escapeHtml cs)))) :=
    italScanF_nocreate hlt hgt hstar (htags emOpen (by simp [mdTags]))
      (htags emClose (by simp [mdTags])) _ none _ hq3
  have hq5 := mapLinesNoCreate hne hnl
    (bulletLine_nocreate hlt hgt (htags liOpen (by simp [mdTags]))
      (htags liClose (by simp [mdTags]))) hq4
  have hq6 := ulWrapPass_nocreate hlt hgt hnl (htags ulOpen (by simp [mdTags]))
    (htags ulClose (by simp [mdTags])) hq5
  have hq7 := mapLinesNoCreate hne hnl
    (numberedLine_nocreate hlt hgt (htags liOpen (by simp [mdTags]))
      (htags liClose (by simp [mdTags]))) hq6
  have hq8 := mapLinesNoCreate hne hnl
    (hrLine_nocreate (htags hrTag (by simp [mdTags]))) hq7
  have hq9 := paraScan_nocreate hlt hgt hnl (htags pBreak (by simp [mdTags])) _ hq8
  exact brScan_nocreate hlt hgt hnl (htags brTag (by simp [mdTags])) _ hq9

/-- The final wrap also creates no occurrence of such a pattern. -/
theorem parseMarkdown_nocreate {qs : List Char} (hlt : '<' ∉ qs) (hgt : '>' ∉ '<' :: qs)
    (hnl : '\n' ∉ '<' :: qs) (hstar : '*' ∉ '<' :: qs)
    (htags : ∀ tag ∈ mdTags, ¬ ('<' :: qs) <:+: tag) :
    ∀ s : String, ¬ ('<' :: qs) <:+: (parseMarkdown s).data := by
  intro s
  by_cases hne : s = ""
  · subst hne
    intro habs
    simpa using List.eq_nil_of_infix_nil habs
  · unfold parseMarkdown
    simp only [hne, if_false]
    have hq := mdCore_nocreate hlt hgt hnl hstar htags s.data
    by_cases hb : startsWithBlock (mdCore s.data) = true
    · simp only [hb, if_true]
      exact hq
    · simp only [hb, if_false]
      intro habs
      have habs' : ('<' :: qs) <:+: pOpen ++ mdCore s.data ++ pClose := habs
      rw [List.append_assoc] at habs'
      have h2 : ¬ ('<' :: qs) <:+: mdCore s.data ++ pClose :=
        infNoCreateOpen hlt pClose_cons hq (htags pClose (by simp [mdTags]))
      obtain ⟨o, ho⟩ := pOpen_last
      exact infNoCreateClose hgt ho (htags pOpen (by simp [mdTags])) h2 habs'

/-! ## Identity lemmas: passes that leave a plain string unchanged

Used to compute the render of a standalone numbered line `N. text`:
on a newline-free string without `&`, `<`, `>`, `*` the escape, header,
bold, italic, bullet, grouping, horizontal-rule, paragraph and
line-break passes are all the identity, and the numbered-line pass
fires exactly once. -/

theorem escAmp_id : ∀ l : List Char, '&' ∉ l → escAmp l = l := by
  intro l
  induction l with
  | nil => intro _; rfl
  | cons c r ih =>
    intro h
    have hc : ¬ c = '&' := fun he => h (by simp [he])
    have hr : '&' ∉ r := fun hm => h (List.mem_cons_of_mem _ hm)
    unfold escAmp
    rw [if_neg hc, ih hr]

theorem escLt_id : ∀ l : List Char, '<' ∉ l → escLt l = l := by
  intro l
  induction l with
  | nil => intro _; rfl
  | cons c r ih =>
    intro h
    have hc : ¬ c = '<' := fun he => h (by simp [he])
    have hr : '<' ∉ r := fun hm => h (List.mem_cons_of_mem _ hm)
    unfold escLt
    rw [if_neg hc, ih hr]

theorem escGt_id : ∀ l : List Char, '>' ∉ l → escGt l = l := by
  intro l
  induction l with
  | nil => intro _; rfl
  | cons c r ih =>
    intro h
    have hc : ¬ c = '>' := fun he => h (by simp [he])
    have hr : '>' ∉ r := fun hm => h (List.mem_cons_of_mem _ hm)
    unfold escGt
    rw [if_neg hc, ih hr]

theorem escapeHtml_id {l : List Char} (ha : '&' ∉ l) (hl : '<' ∉ l) (hg : '>' ∉ l) :
    escapeHtml l = l := by
  unfold escapeHtml
  rw [escAmp_id l ha, escLt_id l hl, escGt_id l hg]

theorem splitNl_no_nl : ∀ l : List Char, '\n' ∉ l → splitNl l = [l] := by
  intro l
  induction l with
  | nil => intro _; rfl
  | cons c r ih =>
    intro h
    have hc : ¬ c = '\n' := fun he => h (by simp [he])
    have hr : '\n' ∉ r := fun hm => h (List.mem_cons_of_mem _ hm)
    unfold splitNl
    rw [if_neg hc, ih hr]

theorem mapLines_no_nl (f : List Char → List Char) {l : List Char} (h : '\n' ∉ l) :
    mapLines f l = f l := by
  unfold mapLines
  rw [splitNl_no_nl l h]
  rfl

theorem boldScanF_no_star : ∀ (n : Nat) (cs : List Char), '*' ∉ cs → boldScanF n cs = cs := by
  intro n
  induction n with
  | zero => intro cs _; cases cs <;> rfl
  | succ m ih =>
    intro cs h
    cases cs with
    | nil => rfl
    | cons c r =>
      have hc : ¬ c = '*' := fun he => h (by simp [he])
      have hr : '*' ∉ r := fun hm => h (List.mem_cons_of_mem _ hm)
      unfold boldScanF
      rw [if_neg (fun hand => hc hand.1), ih r hr]

theorem boldPass_id {cs : List Char} (h : '*' ∉ cs) : boldPass cs = cs :=
  boldScanF_no_star cs.length cs h

theorem italScanF_no_star :
    ∀ (n : Nat) (p : Option Char) (cs : List Char), '*' ∉ cs → italScanF n p cs = cs := by
  intro n
  induction n with
  | zero => intro p cs _; cases cs <;> rfl
  | succ m ih =>
    intro p cs h
    cases cs with
    | nil => rfl
    | cons c r =>
      have hc : ¬ c = '*' := fun he => h (by simp [he])
      have hr : '*' ∉ r := fun hm => h (List.mem_cons_of_mem _ hm)
      unfold italScanF
      rw [if_neg hc, ih (some c) r hr]

theorem italPass_id {cs : List Char} (h : '*' ∉ cs) : italPass cs = cs :=
  italScanF_no_star cs.length none cs h

theorem paraScan_no_nl : ∀ cs : List Char, '\n' ∉ cs → paraScan cs = cs := by
  intro cs
  induction cs with
  | nil => intro _; rfl
  | cons c r ih =>
    intro h
    have hc : ¬ c = '\n' := fun he => h (by simp [he])
    have hr : '\n' ∉ r := fun hm => h (List.mem_cons_of_mem _ hm)
    cases r with
    | nil => rfl
    | cons c2 r2 =>
      unfold paraScan
      rw [if_neg (fun hand => hc hand.1), ih hr]

theorem brScan_no_nl : ∀ cs : List Char, '\n' ∉ cs → brScan cs = cs := by
  intro cs
  induction cs with
  | nil => intro _; rfl
  | cons c r ih =>
    intro h
    have hc : ¬ c = '\n' := fun he => h (by simp [he])
    have hr : '\n' ∉ r := fun hm => h (List.mem_cons_of_mem _ hm)
    unfold brScan
    rw [if_neg hc, ih hr]

theorem isPrefixOf_cons_head {c0 c : Char} {p r : List Char}
    (h : (c0 :: p).isPrefixOf (c :: r) = true) : c0 = c :=
  (List.cons_prefix_cons.mp (List.isPrefixOf_iff_prefix.mp h)).1

theorem takeWhile_digit_dot :
    ∀ (d rest : List Char), (∀ c ∈ d, c.isDigit = true) →
      (d ++ '.' :: rest).takeWhile (fun c => c.isDigit) = d
        ∧ (d ++ '.' :: rest).dropWhile (fun c => c.isDigit) = '.' :: rest := by
  intro d
  induction d with
  | nil =>
    intro rest _
    constructor
    · simp [List.takeWhile_cons]
    · simp [List.dropWhile_cons]
  | cons c d' ih =>
    intro rest hd
    have hc : c.isDigit = true := hd c (by simp)
    have hd' : ∀ a ∈ d', a.isDigit = true := fun a ha => hd a (by simp [ha])
    constructor
    · simp [List.takeWhile_cons, hc, (ih rest hd').1]
    · simp [List.dropWhile_cons, hc, (ih rest hd').2]

theorem startsWithBlock_li (rest : List Char) :
    startsWithBlock ('<' :: 'l' :: rest) = false := by
  unfold startsWithBlock
  rw [Bool.or_eq_false_iff, Bool.or_eq_false_iff]
  refine ⟨⟨?_, ?_⟩, ?_⟩
  · rw [Bool.eq_false_iff]
    intro h
    have hp := List.isPrefixOf_iff_prefix.mp h
    rw [show ("<h".data : List Char) = '<' :: 'h' :: [] from rfl] at hp
    rcases List.cons_prefix_cons.mp hp with ⟨-, hp2⟩
    rcases List.cons_prefix_cons.mp hp2 with ⟨he, -⟩
    exact absurd he (by decide)
  · rw [Bool.eq_false_iff]
    intro h
    have hp := List.isPrefixOf_iff_prefix.mp h
    rw [show ("<ul".data : List Char) = '<' :: 'u' :: ['l'] from rfl] at hp
    rcases List.cons_prefix_cons.mp hp with ⟨-, hp2⟩
    rcases List.cons_prefix_cons.mp hp2 with ⟨he, -⟩
    exact absurd he (by decide)
  · rw [Bool.eq_false_iff]
    intro h
    have hp := List.isPrefixOf_iff_prefix.mp h
    rw [show ("<ol".data : List Char) = '<' :: 'o' :: ['l'] from rfl] at hp
    rcases List.cons_prefix_cons.mp hp with ⟨-, hp2⟩
    rcases List.cons_prefix_cons.mp hp2 with ⟨he, -⟩
    exact absurd he (by decide)

theorem mdCore_numbered (d t : List Char) (hd : d ≠ [])
    (hdig : ∀ c ∈ d, c.isDigit = true) (ht : t ≠ [])
    (hsp : ∀ c ∈ t, c ≠ '\n' ∧ c ≠ '&' ∧ c ≠ '<' ∧ c ≠ '>' ∧ c ≠ '*') :
    mdCore (d ++ '.' :: ' ' :: t) = liOpen ++ t ++ liClose := by
  obtain ⟨d0, d', rfl⟩ : ∃ d0 d', d = d0 :: d' := by
    cases d with
    | nil => exact absurd rfl hd
    | cons a b => exact ⟨a, b, rfl⟩
  have hd0 : d0.isDigit = true := hdig d0 (by simp)
  have hnotin : ∀ x : Char, x.isDigit = false → x ≠ '.' → x ≠ ' ' → x ∉ t →
      x ∉ (d0 :: d') ++ '.' :: ' ' :: t := by
    intro x hx hdot hspc hxt hmem
    rcases List.mem_append.mp hmem with h1 | h1
    · simp [hdig x h1] at hx
    · rcases List.mem_cons.mp h1 with h2 | h2
      · exact hdot h2
      · rcases List.mem_cons.mp h2 with h3 | h3
        · exact hspc h3
        · exact hxt h3
  have hamp : '&' ∉ (d0 :: d') ++ '.' :: ' ' :: t :=
    hnotin '&' (by decide) (by decide) (by decide) (fun hm => (hsp '&' hm).2.1 rfl)
  have hlt : '<' ∉ (d0 :: d') ++ '.' :: ' ' :: t :=
    hnotin '<' (by decide) (by decide) (by decide) (fun hm => (hsp '<' hm).2.2.1 rfl)
  have hgt : '>' ∉ (d0 :: d') ++ '.' :: ' ' :: t :=
    hnotin '>' (by decide) (by decide) (by decide) (fun hm => (hsp '>' hm).2.2.2.1 rfl)
  have hstar : '*' ∉ (d0 :: d') ++ '.' :: ' ' :: t :=
    hnotin '*' (by decide) (by decide) (by decide) (fun hm => (hsp '*' hm).2.2.2.2 rfl)
  have hnl : '\n' ∉ (d0 :: d') ++ '.' :: ' ' :: t :=
    hnotin '\n' (by decide) (by decide) (by decide) (fun hm => (hsp '\n' hm).1 rfl)
  have hh4 : h4Line ((d0 :: d') ++ '.' :: ' ' :: t) = (d0 :: d') ++ '.' :: ' ' :: t := by
    unfold h4Line
    rw [if_neg]
    intro hcond
    have h1 := hcond.1
    rw [show ("### ".data : List Char) = '#' :: "## ".data from rfl,
      List.cons_append] at h1
    have he := isPrefixOf_cons_head h1
    rw [← he] at hd0
    exact absurd hd0 (by decide)
  have hh3 : h3Line ((d0 :: d') ++ '.' :: ' ' :: t) = (d0 :: d') ++ '.' :: ' ' :: t := by
    unfold h3Line
    rw [if_neg]
    intro hcond
    have h1 := hcond.1
    rw [show ("## ".data : List Char) = '#' :: "# ".data from rfl,
      List.cons_append] at h1
    have he := isPrefixOf_cons_head h1
    rw [← he] at hd0
    exact absurd hd0 (by decide)
  have hbul : bulletLine ((d0 :: d') ++ '.' :: ' ' :: t) = (d0 :: d') ++ '.' :: ' ' :: t := by
    unfold bulletLine
    rw [if_neg]
    intro hcond
    rcases hcond.1 with hp | hp
    · rw [show ("- ".data : List Char) = '-' :: " ".data from rfl,
        List.cons_append] at hp
      have he := isPrefixOf_cons_head hp
      rw [← he] at hd0
      exact absurd hd0 (by decide)
    · rw [show ("• ".data : List Char) = '•' :: " ".data from rfl,
        List.cons_append] at hp
      have he := isPrefixOf_cons_head hp
      rw [← he] at hd0
      exact absurd hd0 (by decide)
  have hli : isLiLine ((d0 :: d') ++ '.' :: ' ' :: t) = false := by
    unfold isLiLine
    rw [Bool.eq_false_iff]
    intro h
    simp only [Bool.and_eq_true] at h
    have h1 := h.1
    rw [show (liOpen : List Char) = '<' :: "li>".data from rfl,
      List.cons_append] at h1
    have he := isPrefixOf_cons_head h1
    rw [← he] at hd0
    exact absurd hd0 (by decide)
  have hli' : isLiLine (d0 :: (d' ++ '.' :: ' ' :: t)) = false := hli
  have hulw : ulWrapPass ((d0 :: d') ++ '.' :: ' ' :: t) = (d0 :: d') ++ '.' :: ' ' :: t := by
    unfold ulWrapPass ulWrapLines
    rw [splitNl_no_nl _ hnl]
    simp [ulWrapGo, joinNl, hli']
  have htd := takeWhile_digit_dot (d0 :: d') (' ' :: t) hdig
  have hnum : numberedLine ((d0 :: d') ++ '.' :: ' ' :: t) = liOpen ++ t ++ liClose := by
    unfold numberedLine
    rw [if_pos]
    · rw [htd.2]
      rfl
    · refine ⟨?_, ?_, ?_⟩
      · rw [htd.1]; simp
      · rw [htd.2]
        simp [List.isPrefixOf]
      · rw [htd.2]
        exact ht
  have hnl2 : '\n' ∉ liOpen ++ t ++ liClose := by
    intro hm
    rcases List.mem_append.mp hm with h1 | h1
    · rcases List.mem_append.mp h1 with h2 | h2
      · exact absurd h2 (by decide)
      · exact (hsp '\n' h2).1 rfl
    · exact absurd h1 (by decide)
  have hhr2 : hrLine (liOpen ++ t ++ liClose) = liOpen ++ t ++ liClose := by
    unfold hrLine
    rw [if_neg]
    intro hcond
    have hmem : '<' ∈ liOpen ++ t ++ liClose :=
      List.mem_append.mpr (Or.inl (List.mem_append.mpr (Or.inl (by decide))))
    have := List.all_eq_true.mp hcond.2 '<' hmem
    simp at this
  show brScan (paraScan (mapLines hrLine (mapLines numberedLine (ulWrapPass
    (mapLines bulletLine (italPass (boldPass (mapLines h3Line (mapLines h4Line
      (escapeHtml ((d0 :: d') ++ '.' :: ' ' :: t)))))))))))
        = liOpen ++ t ++ liClose
  rw [escapeHtml_id hamp hlt hgt, mapLines_no_nl _ hnl, hh4, mapLines_no_nl _ hnl, hh3,
    boldPass_id hstar, italPass_id hstar, mapLines_no_nl _ hnl, hbul, hulw,
    mapLines_no_nl _ hnl, hnum, mapLines_no_nl _ hnl2, hhr2,
    paraScan_no_nl _ hnl2, brScan_no_nl _ hnl2]

theorem parseMarkdown_numbered (d t : List Char) (hd : d ≠ [])
    (hdig : ∀ c ∈ d, c.isDigit = true) (ht : t ≠ [])
    (hsp : ∀ c ∈ t, c ≠ '\n' ∧ c ≠ '&' ∧ c ≠ '<' ∧ c ≠ '>' ∧ c ≠ '*') :
    parseMarkdown ⟨d ++ '.' :: ' ' :: t⟩ = ⟨pOpen ++ (liOpen ++ t ++ liClose) ++ pClose⟩ := by
  have hne : (⟨d ++ '.' :: ' ' :: t⟩ : String) ≠ "" := by
    intro he
    have hdt : d ++ '.' :: ' ' :: t = [] := congrArg String.data he
    simp at hdt
  unfold parseMarkdown
  rw [if_neg hne]
  have hdata : (⟨d ++ '.' :: ' ' :: t⟩ : String).data = d ++ '.' :: ' ' :: t := rfl
  rw [hdata, mdCore_numbered d t hd hdig ht hsp]
  have hsw : startsWithBlock (liOpen ++ t ++ liClose) = false :=
    startsWithBlock_li ('i' :: '>' :: (t ++ liClose))
  have hneg : ¬ (startsWithBlock (liOpen ++ t ++ liClose) = true) := by
    rw [hsw]
    exact Bool.false_ne_true
  rw [if_neg hneg]

/-- C4: entity escaping runs first, so for every input containing
`<script>` the rendered output contains `&lt;script&gt;` and never the
live substring `<script>`: after the escape no `<` from the input
survives, and no subsequent rule can assemble the character sequence
`<sc` (hence `<script>`) out of the fragments it inserts. -/
theorem parseMarkdown_escapes_script :
    ∀ s : String, "<script>".data <:+: s.data →
      "&lt;script&gt;".data <:+: (parseMarkdown s).data
        ∧ ¬ ("<script>".data <:+: (parseMarkdown s).data) := by
  intro s h
  have hne : s ≠ "" := by
    intro he
    subst he
    exact absurd (List.eq_nil_of_infix_nil h) (by decide)
  have hpos := mdCore_keeps_script s.data h
  have hq : ∀ u : String, ¬ ('<' :: "sc".data) <:+: (parseMarkdown u).data :=
    parseMarkdown_nocreate (by decide) (by decide) (by decide) (by decide) (by decide)
  constructor
  · unfold parseMarkdown
    simp only [hne, if_false]
    by_cases hb : startsWithBlock (mdCore s.data) = true
    · simp only [hb, if_true]
      exact hpos
    · simp only [hb, if_false]
      exact infAppendRight _ (infAppendLeft _ hpos)
  · intro habs
    apply hq s
    refine ( List.IsPrefix.isInfix ?_).trans habs
    decide

/-- Witness for C4 at the concrete input `a<script>b`. -/
theorem parseMarkdown_escapes_script_witness :
    "<script>".data <:+: ("a<script>b" : String).data
      ∧ "&lt;script&gt;".data <:+: (parseMarkdown "a<script>b").data
      ∧ ¬ ("<script>".data <:+: (parseMarkdown "a<script>b").data) := by
  have h := parseMarkdown_escapes_script "a<script>b" (by decide)
  exact ⟨by decide, h.1, h.2⟩

/-- C8 counterexample: the original claim's universal fails -- the
numbered line `1. a` of the input `- x\n1. a` is not converted to a
list item.  The unordered-list grouping pass runs first, consumes the
newline after the bullet run and prepends `</ul>` to the following
line, so the numbered-line pattern no longer matches at the start of
that line and the text `1. a` survives verbatim in the render. -/
theorem parseMarkdown_numbered_after_bullet :
    parseMarkdown "- x\n1. a" = "<ul class=\"nuru-list\"><li>x</li><br></ul>1. a"
      ∧ "1. a".data <:+: (parseMarkdown "- x\n1. a").data
      ∧ ¬ ("<li>a</li>".data <:+: (parseMarkdown "- x\n1. a").data) :=
  ⟨by decide, by decide, by decide⟩

/-- C8 (amended): a standalone numbered line `N. text` (a non-empty
digit run, then `. `, then non-empty plain text) is converted to a
bare `<li>` item wrapped only in the paragraph element, and the
renderer never emits an ordered-list wrapper `<ol` on any input; runs
of bullet items are grouped in a single unordered-list wrapper, as the
concrete renders show.  A numbered line directly after a bullet run is
not converted (see the counterexample), because the grouping pass runs
before numbered-line conversion. -/
theorem parseMarkdown_numbered_li_rule :
    (∀ s : String, ¬ ("<ol".data <:+: (parseMarkdown s).data))
      ∧ (∀ d t : List Char, d ≠ [] → (∀ c ∈ d, c.isDigit = true) → t ≠ [] →
          (∀ c ∈ t, c ≠ '\n' ∧ c ≠ '&' ∧ c ≠ '<' ∧ c ≠ '>' ∧ c ≠ '*') →
          parseMarkdown ⟨d ++ '.' :: ' ' :: t⟩
            = ⟨pOpen ++ (liOpen ++ t ++ liClose) ++ pClose⟩)
      ∧ parseMarkdown "1. a\n2. b" = "<p class=\"nuru-p\"><li>a</li><br><li>b</li></p>"
      ∧ parseMarkdown "- a\n- b"
          = "<ul class=\"nuru-list\"><li>a</li><br><li>b</li></ul>" := by
  refine ⟨?_, parseMarkdown_numbered, by decide, by decide⟩
  intro s
  have hq : ∀ u : String, ¬ ('<' :: "ol".data) <:+: (parseMarkdown u).data :=
    parseMarkdown_nocreate (by decide) (by decide) (by decide) (by decide) (by decide)
  have hq := hq s
  intro habs
  apply hq
  rw [show ('<' :: "ol".data : List Char) = "<ol".data from by decide]
  exact habs

/-- Witness for C8 at the digit run `12` and text `go`: instantiates
the universal list-item rule and the no-ordered-list property at a
concrete input. -/
theorem parseMarkdown_numbered_li_rule_witness :
    parseMarkdown ⟨"12".data ++ '.' :: ' ' :: "go".data⟩
      = ⟨pOpen ++ (liOpen ++ "go".data ++ liClose) ++ pClose⟩
      ∧ ¬ ("<ol".data <:+: (parseMarkdown "12. go").data) :=
  ⟨parseMarkdown_numbered_li_rule.2.1 "12".data "go".data (by decide) (by decide)
      (by decide) (by decide),
    parseMarkdown_numbered_li_rule.1 "12. go"⟩
